import Mathlib

/-!
# Nussinov base-pair maximisation (`rna_fold.cpp`)

A shallow embedding of the core of `rna_fold.cpp`: `isComplementary`,
`initMatrix`, the memoised recurrence `OPT`, `traceback` and the driver
`nussinovAlgorithm`.

Modelling conventions.

* C++ `int` indices are `Int` (they do become negative: `t-1`, `n-1`).  Scores
  are bounded by the sequence length, so no 32-bit overflow can occur for any
  sequence whose `n × n` table fits in memory; they are plain `Int`.
* The heap table `int** N` is a `Matrix`: its side length and a map from index
  pairs to values.  Every read and write is bounds-checked against the side
  length and faults with `Fault.outOfRange` outside `[0, n) × [0, n)`.
* `sequence->at(t)` is `seqAt`, which faults outside `[0, n)`.
* The recursion of `OPT` and `traceback` is driven by a fuel counter; running
  out of fuel is the distinct fault `Fault.outOfFuel`.  The driver supplies
  `n + 1`, and the theorems below show this is always enough.
* `traceback` additionally keeps a ghost log of the pairs it marks and of the
  matrix entries it reads.
-/

namespace RnaFold

/-- The constant `MIN_LOOP_LENGTH` of line 18. -/
def MIN_LOOP_LENGTH : Int := 4

/-- Ways in which a run of the model can go wrong. -/
inductive Fault where
  | outOfRange
  | outOfFuel
  deriving DecidableEq, Repr

/-- The table `int** N` together with its side length. -/
structure Matrix where
  size : Nat
  cell : Int → Int → Int

/-- The effect of `new int*[n]` followed by `new int[n]()` for every row:
an `n × n` table of zeroes. -/
def Matrix.alloc (n : Nat) : Matrix := ⟨n, fun _ _ => 0⟩

/-- Whether `(i, j)` addresses an element of the table. -/
def Matrix.inRange (N : Matrix) (i j : Int) : Bool :=
  decide (0 ≤ i) && decide (i < N.size) && decide (0 ≤ j) && decide (j < N.size)

/-- The read `N[i][j]`. -/
def Matrix.read (N : Matrix) (i j : Int) : Except Fault Int :=
  if N.inRange i j then .ok (N.cell i j) else .error .outOfRange

/-- The write `N[i][j] = v`. -/
def Matrix.write (N : Matrix) (i j v : Int) : Except Fault Matrix :=
  if N.inRange i j then
    .ok ⟨N.size, fun a b => if a = i ∧ b = j then v else N.cell a b⟩
  else .error .outOfRange

/-- The checked access `sequence->at(t)`. -/
def seqAt (sequence : List Char) (t : Int) : Except Fault Char :=
  if t < 0 then .error .outOfRange
  else match sequence[t.toNat]? with
    | some c => .ok c
    | none => .error .outOfRange

/-- The function `isComplementary` (lines 201-204); the C `int` result is read
as a truth value. -/
def isComplementary (a b : Char) : Bool :=
  (a == 'A' && b == 'U') || (a == 'U' && b == 'A') ||
    (a == 'C' && b == 'G') || (a == 'G' && b == 'C')

/-- A counted loop `for (t = lo; t < lo + m; t++) s = body(t, s)`.  Neither bound
nor index is modified by the bodies it is used with, so the trip count is fixed on
entry. -/
def forLoop {σ : Type} (body : Int → σ → Except Fault σ) : Nat → Int → σ → Except Fault σ
  | 0, _, s => .ok s
  | m + 1, t, s =>
    match body t s with
    | .error e => .error e
    | .ok s1 => forLoop body m (t + 1) s1

/-- The function `initMatrix` (lines 134-143). -/
def initMatrix (matrix : Matrix) (size : Int) : Except Fault Matrix :=
  forLoop
    (fun i M =>
      forLoop (fun j M1 => M1.write i j (-1))
        (size - (i + 1 + MIN_LOOP_LENGTH)).toNat (i + 1 + MIN_LOOP_LENGTH) M)
    size.toNat 0 matrix

/-- One trip of the loop of lines 169-178 of `OPT`.  The state is the pair
`(max_paired, N)`; `call` stands for the recursive calls.  In
`1 + OPT(i, t-1) + OPT(t+1, j-1)` the left call is taken first. -/
def pairStep (call : Int → Int → Matrix → Except Fault (Int × Matrix))
    (i j : Int) (sequence : List Char) (t : Int) (st : Int × Matrix) :
    Except Fault (Int × Matrix) :=
  match seqAt sequence t with
  | .error e => .error e
  | .ok a =>
    match seqAt sequence j with
    | .error e => .error e
    | .ok b =>
      if isComplementary a b then
        match call i (t - 1) st.2 with
        | .error e => .error e
        | .ok (l, N1) =>
          match call (t + 1) (j - 1) N1 with
          | .error e => .error e
          | .ok (r, N2) =>
            let pairing := 1 + l + r
            if pairing > st.1 then .ok (pairing, N2) else .ok (st.1, N2)
      else .ok st

/-- The function `OPT` (lines 153-193), returning the score together with the
updated table. -/
def OPT : Nat → Int → Int → List Char → Matrix → Except Fault (Int × Matrix)
  | 0, _, _, _, _ => .error .outOfFuel
  | fuel + 1, i, j, sequence, N =>
    if j - i ≤ MIN_LOOP_LENGTH then .ok (0, N)
    else
      match N.read i j with
      | .error e => .error e
      | .ok v =>
        if v ≠ -1 then .ok (v, N)
        else
          match OPT fuel i (j - 1) sequence N with
          | .error e => .error e
          | .ok (unpaired, N1) =>
            match forLoop (pairStep (fun a b M => OPT fuel a b sequence M) i j sequence)
                (j - MIN_LOOP_LENGTH - i).toNat i (0, N1) with
            | .error e => .error e
            | .ok (max_paired, N2) =>
              if unpaired > max_paired then
                match N2.write i j unpaired with
                | .error e => .error e
                | .ok N3 => .ok (unpaired, N3)
              else
                match N2.write i j max_paired with
                | .error e => .error e
                | .ok N3 => .ok (max_paired, N3)

/-- What `traceback` works on: the array `structure`, and two ghost logs: the
pairs marked so far and the matrix reads made so far (indices and value). -/
structure Trace where
  struct : List Char
  marks : List (Int × Int)
  reads : List (Int × Int × Int)

/-- The write `structure[k] = c`. -/
def Trace.put (tr : Trace) (k : Int) (c : Char) : Except Fault Trace :=
  if 0 ≤ k ∧ k < tr.struct.length then
    .ok ⟨tr.struct.set k.toNat c, tr.marks, tr.reads⟩
  else .error .outOfRange

/-- A read `N[i][j]` made by `traceback`, recorded in the log. -/
def Trace.get (tr : Trace) (N : Matrix) (i j : Int) : Except Fault (Int × Trace) :=
  match N.read i j with
  | .error e => .error e
  | .ok v => .ok (v, ⟨tr.struct, tr.marks, tr.reads ++ [(i, j, v)]⟩)

/-- Record the pair `(k, j)` in the log of marks. -/
def Trace.noteMark (tr : Trace) (k j : Int) : Trace :=
  ⟨tr.struct, tr.marks ++ [(k, j)], tr.reads⟩

/-- The loop of lines 228-246 of `traceback`, from index `k` with `m` trips left;
`call` stands for the recursive calls.  Falling out of the loop leaves the state
as it is. -/
def scanPartner (call : Int → Int → Trace → Except Fault Trace)
    (i j : Int) (N : Matrix) (sequence : List Char) : Nat → Int → Trace → Except Fault Trace
  | 0, _, tr => .ok tr
  | m + 1, k, tr =>
    match seqAt sequence k with
    | .error e => .error e
    | .ok a =>
      match seqAt sequence j with
      | .error e => .error e
      | .ok b =>
        if isComplementary a b then
          match (if k - 1 ≥ 0 then tr.get N i (k - 1) else .ok (0, tr)) with
          | .error e => .error e
          | .ok (score, tr1) =>
            match tr1.get N i j with
            | .error e => .error e
            | .ok (nij, tr2) =>
              match tr2.get N (k + 1) (j - 1) with
              | .error e => .error e
              | .ok (nkj, tr3) =>
                if nij = 1 + score + nkj then
                  match tr3.put k '(' with
                  | .error e => .error e
                  | .ok tr4 =>
                    match tr4.put j ')' with
                    | .error e => .error e
                    | .ok tr5 =>
                      match call i (k - 1) (tr5.noteMark k j) with
                      | .error e => .error e
                      | .ok tr6 => call (k + 1) (j - 1) tr6
                else scanPartner call i j N sequence m (k + 1) tr3
        else scanPartner call i j N sequence m (k + 1) tr

/-- The function `traceback` (lines 217-248). -/
def traceback : Nat → Int → Int → Matrix → Trace → List Char → Except Fault Trace
  | 0, _, _, _, _, _ => .error .outOfFuel
  | fuel + 1, i, j, N, tr, sequence =>
    if j ≤ i then .ok tr
    else
      match tr.get N i j with
      | .error e => .error e
      | .ok (nij, tr1) =>
        match tr1.get N i (j - 1) with
        | .error e => .error e
        | .ok (nij1, tr2) =>
          if nij = nij1 then traceback fuel i (j - 1) N tr2 sequence
          else
            scanPartner (fun a b t => traceback fuel a b N t sequence) i j N sequence
              (j - i).toNat i tr2

/-- The function `nussinovAlgorithm` (lines 98-126).  The source returns the
array `structure`; the model also hands back the table it leaves behind and the
ghost logs of `traceback`. -/
def nussinovAlgorithm (read_vec : List Char) : Except Fault (Matrix × Trace) :=
  let n : Int := read_vec.length
  match initMatrix (Matrix.alloc read_vec.length) n with
  | .error e => .error e
  | .ok N0 =>
    match OPT (read_vec.length + 1) 0 (n - 1) read_vec N0 with
    | .error e => .error e
    | .ok (v, N1) =>
      match N1.write 0 (n - 1) v with
      | .error e => .error e
      | .ok nussinov =>
        match traceback (read_vec.length + 1) 0 (n - 1) nussinov
            ⟨List.replicate read_vec.length '.', [], []⟩ read_vec with
        | .error e => .error e
        | .ok tr => .ok (nussinov, tr)

/-! ## Specification vocabulary -/

/-- Whether positions `a` and `b` of the sequence exist and hold complementary bases. -/
def complementaryAt (s : List Char) (a b : Int) : Bool :=
  match seqAt s a, seqAt s b with
  | .ok x, .ok y => isComplementary x y
  | _, _ => false

/-- The candidate partners of `j` among the first `d` positions of the window
starting at `i`. -/
def candidatesUpTo (s : List Char) (i j : Int) (d : Nat) : List Int :=
  ((List.range d).map (fun e : Nat => i + (e : Int))).filter (fun t => complementaryAt s t j)

/-- The candidate partners `t` in `[i, j - MIN_LOOP_LENGTH - 1]` of `j`. -/
def candidates (s : List Char) (i j : Int) : List Int :=
  candidatesUpTo s i j (j - MIN_LOOP_LENGTH - i).toNat

/-- The maximum of a list of scores, an empty list contributing 0. -/
def maxOf (l : List Int) : Int := l.foldr max 0

/-- The Nussinov recurrence, unfolded `f` levels deep. -/
def scoreFuel (s : List Char) : Nat → Int → Int → Int
  | 0, _, _ => 0
  | f + 1, i, j =>
    if j - i ≤ MIN_LOOP_LENGTH then 0
    else
      max (scoreFuel s f i (j - 1))
        (maxOf ((candidates s i j).map
          (fun t => 1 + scoreFuel s f i (t - 1) + scoreFuel s f (t + 1) (j - 1))))

/-- The Nussinov recurrence `R(i, j)`. -/
def R (s : List Char) (i j : Int) : Int := scoreFuel s (j - i).toNat i j

/-- Entry `(a, b)` needs no computation or has been computed. -/
def Done (N : Matrix) (a b : Int) : Prop := b - a ≤ MIN_LOOP_LENGTH ∨ N.cell a b ≠ -1

/-- The table `M` keeps the side length and every computed entry of `N`. -/
def Extends (N M : Matrix) : Prop :=
  M.size = N.size ∧ ∀ a b, N.cell a b ≠ -1 → M.cell a b = N.cell a b

/-- The invariant of the memo table for the sequence `s`. -/
structure Good (s : List Char) (N : Matrix) : Prop where
  size_eq : N.size = s.length
  base : ∀ a b : Int, b - a ≤ MIN_LOOP_LENGTH → N.cell a b = 0
  memo : ∀ a b : Int, 0 ≤ a → b < s.length → MIN_LOOP_LENGTH < b - a →
    N.cell a b = -1 ∨ N.cell a b = R s a b
  closed : ∀ a b : Int, 0 ≤ a → b < s.length → MIN_LOOP_LENGTH < b - a → N.cell a b ≠ -1 →
    Done N a (b - 1) ∧ ∀ t ∈ candidates s a b, Done N a (t - 1) ∧ Done N (t + 1) (b - 1)

/-- What a call `OPT(a, b)` achieves on a good table. -/
def CallOK (s : List Char) (call : Int → Int → Matrix → Except Fault (Int × Matrix))
    (a b : Int) : Prop :=
  ∀ M, Good s M → ∃ M1, call a b M = .ok (R s a b, M1) ∧ Good s M1 ∧ Extends M M1 ∧ Done M1 a b

/-- The state of the loop of `OPT` before the trip with index `t`. -/
def PairInv (s : List Char) (N : Matrix) (i j t : Int) (st : Int × Matrix) : Prop :=
  Good s st.2 ∧ Extends N st.2 ∧
  st.1 = maxOf ((candidatesUpTo s i j (t - i).toNat).map
      (fun u => 1 + R s i (u - 1) + R s (u + 1) (j - 1))) ∧
  ∀ u ∈ candidatesUpTo s i j (t - i).toNat, Done st.2 i (u - 1) ∧ Done st.2 (u + 1) (j - 1)

/-- The words `traceback` writes over a window starting at `i`, with the pairs it
marks: nothing, a word followed by an unpaired position, or a word followed by a
marked pair enclosing a word. -/
inductive Folded (s : List Char) : Int → List Char → List (Int × Int) → Prop
  | nil (i : Int) : Folded s i [] []
  | dot {i : Int} {w : List Char} {P : List (Int × Int)} :
      Folded s i w P → Folded s i (w ++ ['.']) P
  | pair {i : Int} {w1 w2 : List Char} {P1 P2 : List (Int × Int)} :
      Folded s i w1 P1 → Folded s (i + w1.length + 1) w2 P2 →
      MIN_LOOP_LENGTH ≤ w2.length →
      complementaryAt s (i + w1.length) (i + w1.length + 1 + w2.length) = true →
      Folded s i (w1 ++ '(' :: (w2 ++ [')']))
        ((i + w1.length, i + w1.length + 1 + w2.length) :: (P1 ++ P2))

/-- A logged read `(a, b, v)` is in range, of a finished entry, and returns the
recurrence value. -/
def ReadOK (s : List Char) (N : Matrix) (r : Int × Int × Int) : Prop :=
  (0 ≤ r.1 ∧ r.1 < s.length) ∧ (0 ≤ r.2.1 ∧ r.2.1 < s.length) ∧
    Done N r.1 r.2.1 ∧ r.2.2 = N.cell r.1 r.2.1 ∧ r.2.2 = R s r.1 r.2.1

/-- What a call `traceback(i, i + len - 1)` achieves on a window of dots. -/
def TraceOK (s : List Char) (N : Matrix) (call : Int → Int → Trace → Except Fault Trace)
    (i : Int) (len : Nat) : Prop :=
  ∀ (pre suf : List Char) (mk : List (Int × Int)) (rd : List (Int × Int × Int)),
    (pre.length : Int) = i → i + len + suf.length = s.length →
    ∃ w P rs, call i (i + len - 1) ⟨pre ++ List.replicate len '.' ++ suf, mk, rd⟩ =
        .ok ⟨pre ++ w ++ suf, mk ++ P, rd ++ rs⟩ ∧
      Folded s i w P ∧ w.length = len ∧ (P.length : Int) = R s i (i + len - 1) ∧
      ∀ r ∈ rs, ReadOK s N r

/-- The table left by `initMatrix` on a fresh allocation: `-1` exactly at the
entries `(a, b)` of the table with `b - a > MIN_LOOP_LENGTH`, zero elsewhere. -/
def Fresh (n : Nat) (N : Matrix) : Prop :=
  N.size = n ∧ ∀ a b : Int, N.cell a b =
    if 0 ≤ a ∧ a + 1 + MIN_LOOP_LENGTH ≤ b ∧ b < n then -1 else 0

/-- The pair `p = (a, b)` may be formed inside the window `[i, j]`: it lies in
the window, its ends are more than `MIN_LOOP_LENGTH` apart and hold complementary
bases. -/
def PairOK (s : List Char) (i j : Int) (p : Int × Int) : Prop :=
  i ≤ p.1 ∧ p.1 < p.2 ∧ p.2 ≤ j ∧ p.2 - p.1 > MIN_LOOP_LENGTH ∧
    complementaryAt s p.1 p.2 = true

/-- Two pairs have an index in common. -/
def SharesIndex (p q : Int × Int) : Prop :=
  p.1 = q.1 ∨ p.1 = q.2 ∨ p.2 = q.1 ∨ p.2 = q.2

/-- The pairs `p = (a1, b1)` and `q = (a2, b2)` cross: `a1 < a2 < b1 < b2`. -/
def Crosses (p q : Int × Int) : Prop :=
  p.1 < q.1 ∧ q.1 < p.2 ∧ p.2 < q.2

/-- A set of pairs over the window `[i, j]` in which every pair may be formed, no
index occurs in two pairs and no two pairs cross. -/
structure ValidPairing (s : List Char) (i j : Int) (P : Finset (Int × Int)) : Prop where
  ok : ∀ p ∈ P, PairOK s i j p
  apart : ∀ p ∈ P, ∀ q ∈ P, p ≠ q → ¬ SharesIndex p q
  nocross : ∀ p ∈ P, ∀ q ∈ P, ¬ Crosses p q

/-- The value `v` is the largest size of a valid pairing over the window `[i, j]`. -/
def IsMaxPairs (s : List Char) (i j : Int) (v : Int) : Prop :=
  (∃ P, ValidPairing s i j P ∧ (P.card : Int) = v) ∧
    ∀ P, ValidPairing s i j P → (P.card : Int) ≤ v

/-- A bracket string is balanced: no prefix closes more than it opens, and the whole
string opens as often as it closes. -/
def Balanced (w : List Char) : Prop :=
  (∀ m : Nat, (w.take m).count ')' ≤ (w.take m).count '(') ∧ w.count '(' = w.count ')'

/-- Bracket matching by a left-to-right scan with a stack of the open positions:
`idx` is the position of the head of the list.  A `)` is paired with the latest
unmatched `(`; an unmatched `)` is skipped. -/
def matchScan : List Char → Nat → List Nat → List (Nat × Nat)
  | [], _, _ => []
  | c :: cs, idx, stack =>
    if c = '(' then matchScan cs (idx + 1) (idx :: stack)
    else if c = ')' then
      match stack with
      | [] => matchScan cs (idx + 1) []
      | top :: rest => (top, idx) :: matchScan cs (idx + 1) rest
    else matchScan cs (idx + 1) stack

/-- The partners `(a, b)`, `a` the position of a `(` and `b` of its `)`, of a
dot-bracket string. -/
def bracketPartners (w : List Char) : List (Nat × Nat) := matchScan w 0 []

/-- Two marked pairs share no index and do not cross, in either order. -/
def Separate (p q : Int × Int) : Prop :=
  ¬ SharesIndex p q ∧ ¬ Crosses p q ∧ ¬ Crosses q p

/-- The precondition of the memoised recurrence: the table has the side length of
the sequence, and every entry `(a, b)` of it with `b - a > MIN_LOOP_LENGTH` is the
sentinel `-1` or already holds `R(a, b)`. -/
def Memo (s : List Char) (N : Matrix) : Prop :=
  N.size = s.length ∧ ∀ a : Nat, a < s.length → ∀ b : Nat, b < s.length →
    MIN_LOOP_LENGTH < (b : Int) - (a : Int) → N.cell a b = -1 ∨ N.cell a b = R s a b

/-- The table `M` arises from `N` by overwriting sentinel entries only, each with
the recurrence value of its window; all other entries are unchanged. -/
def FillsOnly (s : List Char) (N M : Matrix) : Prop :=
  M.size = N.size ∧ ∀ a b : Int, M.cell a b = N.cell a b ∨
    (N.cell a b = -1 ∧ M.cell a b = R s a b ∧ MIN_LOOP_LENGTH < b - a)

/-- What a call `OPT(a, b)` achieves on a table satisfying `Memo`. -/
def CallMemo (s : List Char) (call : Int → Int → Matrix → Except Fault (Int × Matrix))
    (a b : Int) : Prop :=
  ∀ M, Memo s M → ∃ M1, call a b M = .ok (R s a b, M1) ∧ Memo s M1 ∧ FillsOnly s M M1

/-- The test the loop of `traceback` applies to the candidate `k` (lines 230-237):
the bases at `k` and `j` are complementary and `N[i][j] == 1 + score + N[k+1][j-1]`,
`score` being `N[i][k-1]` when `k - 1 ≥ 0` and `0` otherwise. -/
def ScanCond (s : List Char) (N : Matrix) (i j k : Int) : Prop :=
  complementaryAt s k j = true ∧
    N.cell i j = 1 + (if k - 1 ≥ 0 then N.cell i (k - 1) else 0) + N.cell (k + 1) (j - 1)

/-- The condition on a partner `t` of `j` in the window `(i, j)`: the bases at `t`
and `j` are complementary and `N[i][j] = 1 + score(i, t-1) + score(t+1, j-1)`,
`score(i, t-1)` taken as `0` when `t - 1 < i`. -/
def PartnerCond (s : List Char) (N : Matrix) (i j t : Int) : Prop :=
  complementaryAt s t j = true ∧
    N.cell i j = 1 + (if t - 1 < i then 0 else N.cell i (t - 1)) + N.cell (t + 1) (j - 1)

/-! ## Lemmas and theorems -/

theorem maxOf_nonneg (l : List Int) : 0 ≤ maxOf l := by
  induction l with
  | nil => simp [maxOf]
  | cons x xs ih =>
    have : maxOf (x :: xs) = max x (maxOf xs) := rfl
    rw [this]; exact le_max_of_le_right ih

theorem le_maxOf {l : List Int} {x : Int} (h : x ∈ l) : x ≤ maxOf l := by
  induction l with
  | nil => simp at h
  | cons y ys ih =>
    have e : maxOf (y :: ys) = max y (maxOf ys) := rfl
    rw [e]
    rcases List.mem_cons.mp h with h1 | h1
    · subst h1; exact le_max_left _ _
    · exact le_max_of_le_right (ih h1)

theorem maxOf_eq (l : List Int) : maxOf l = 0 ∨ maxOf l ∈ l := by
  induction l with
  | nil => left; rfl
  | cons y ys ih =>
    have e : maxOf (y :: ys) = max y (maxOf ys) := rfl
    rw [e]
    rcases le_total y (maxOf ys) with h | h
    · rw [max_eq_right h]
      rcases ih with h1 | h1
      · left; exact h1
      · right; exact List.mem_cons_of_mem _ h1
    · rw [max_eq_left h]; right; exact List.mem_cons_self _ _

theorem maxOf_append_singleton (l : List Int) (x : Int) :
    maxOf (l ++ [x]) = max (maxOf l) x := by
  induction l with
  | nil =>
    have hx : maxOf [x] = max x 0 := rfl
    have h0 : maxOf ([] : List Int) = 0 := rfl
    simp only [List.nil_append, hx, h0, max_comm]
  | cons y ys ih =>
    have e1 : maxOf (y :: ys ++ [x]) = max y (maxOf (ys ++ [x])) := rfl
    have e2 : maxOf (y :: ys) = max y (maxOf ys) := rfl
    rw [e1, e2, ih, max_assoc]

theorem mem_candidatesUpTo {s : List Char} {i j t : Int} {d : Nat} :
    t ∈ candidatesUpTo s i j d ↔ (i ≤ t ∧ t < i + d) ∧ complementaryAt s t j = true := by
  unfold candidatesUpTo
  rw [List.mem_filter, List.mem_map]
  constructor
  · rintro ⟨⟨e, he, rfl⟩, hc⟩
    rw [List.mem_range] at he
    exact ⟨⟨by omega, by omega⟩, hc⟩
  · rintro ⟨⟨h1, h2⟩, hc⟩
    refine ⟨⟨(t - i).toNat, ?_, ?_⟩, hc⟩
    · rw [List.mem_range]; omega
    · omega

theorem mem_candidates {s : List Char} {i j t : Int} :
    t ∈ candidates s i j ↔ (i ≤ t ∧ t < j - MIN_LOOP_LENGTH) ∧ complementaryAt s t j = true := by
  unfold candidates
  rw [mem_candidatesUpTo]
  constructor
  · rintro ⟨⟨h1, h2⟩, hc⟩; exact ⟨⟨h1, by omega⟩, hc⟩
  · rintro ⟨⟨h1, h2⟩, hc⟩; exact ⟨⟨h1, by omega⟩, hc⟩

theorem candidatesUpTo_succ (s : List Char) (i j : Int) (d : Nat) :
    candidatesUpTo s i j (d + 1) =
      candidatesUpTo s i j d ++
        (if complementaryAt s (i + d) j then [i + (d : Int)] else []) := by
  unfold candidatesUpTo
  rw [List.range_succ, List.map_append, List.filter_append]
  congr 1
  by_cases h : complementaryAt s (i + d) j = true <;> simp [h]

theorem scoreFuel_irrel (s : List Char) :
    ∀ (f1 f2 : Nat) (i j : Int), (j - i).toNat ≤ f1 → (j - i).toNat ≤ f2 →
      scoreFuel s f1 i j = scoreFuel s f2 i j := by
  have base : ∀ (f : Nat) (i j : Int), j - i ≤ MIN_LOOP_LENGTH → scoreFuel s f i j = 0 := by
    intro f i j h
    cases f with
    | zero => rfl
    | succ f => simp [scoreFuel, h]
  intro f1
  induction f1 with
  | zero =>
    intro f2 i j h1 _
    have : j - i ≤ MIN_LOOP_LENGTH := by unfold MIN_LOOP_LENGTH; omega
    rw [base 0 i j this, base f2 i j this]
  | succ f1 ih =>
    intro f2 i j h1 h2
    by_cases hb : j - i ≤ MIN_LOOP_LENGTH
    · rw [base _ i j hb, base f2 i j hb]
    · cases f2 with
      | zero => exfalso; unfold MIN_LOOP_LENGTH at hb; omega
      | succ f2 =>
        unfold MIN_LOOP_LENGTH at hb
        simp only [scoreFuel, MIN_LOOP_LENGTH, hb, if_false]
        congr 1
        · exact ih f2 i (j - 1) (by omega) (by omega)
        · congr 1
          apply List.map_congr_left
          intro t ht
          rw [mem_candidates] at ht
          unfold MIN_LOOP_LENGTH at ht
          rw [ih f2 i (t - 1) (by omega) (by omega), ih f2 (t + 1) (j - 1) (by omega) (by omega)]

theorem scoreFuel_eq_R (s : List Char) (f : Nat) (i j : Int) (h : (j - i).toNat ≤ f) :
    scoreFuel s f i j = R s i j :=
  scoreFuel_irrel s f _ i j h le_rfl

theorem R_base (s : List Char) (i j : Int) (h : j - i ≤ MIN_LOOP_LENGTH) : R s i j = 0 := by
  unfold R
  cases hf : (j - i).toNat with
  | zero => rfl
  | succ f => simp [scoreFuel, h]

theorem R_step (s : List Char) (i j : Int) (h : ¬ j - i ≤ MIN_LOOP_LENGTH) :
    R s i j = max (R s i (j - 1))
      (maxOf ((candidates s i j).map (fun t => 1 + R s i (t - 1) + R s (t + 1) (j - 1)))) := by
  have hR : R s i j = scoreFuel s ((j - i).toNat - 1 + 1) i j := by
    unfold R; congr 1; unfold MIN_LOOP_LENGTH at h; omega
  rw [hR]
  unfold MIN_LOOP_LENGTH at h
  simp only [scoreFuel, MIN_LOOP_LENGTH, h, if_false]
  congr 1
  · exact scoreFuel_eq_R s _ i (j - 1) (by omega)
  · congr 1
    apply List.map_congr_left
    intro t ht
    rw [mem_candidates] at ht
    unfold MIN_LOOP_LENGTH at ht
    rw [scoreFuel_eq_R s _ i (t - 1) (by omega), scoreFuel_eq_R s _ (t + 1) (j - 1) (by omega)]

theorem R_nonneg (s : List Char) (i j : Int) : 0 ≤ R s i j := by
  by_cases h : j - i ≤ MIN_LOOP_LENGTH
  · rw [R_base s i j h]
  · rw [R_step s i j h]; exact le_max_of_le_right (maxOf_nonneg _)

theorem Extends.refl (N : Matrix) : Extends N N := ⟨rfl, fun _ _ _ => rfl⟩

theorem Extends.trans {N M K : Matrix} (h1 : Extends N M) (h2 : Extends M K) : Extends N K := by
  refine ⟨h2.1.trans h1.1, fun a b hab => ?_⟩
  have e1 := h1.2 a b hab
  rw [h2.2 a b (by rw [e1]; exact hab), e1]

theorem Done.mono {N M : Matrix} (h : Extends N M) {a b : Int} (hd : Done N a b) : Done M a b := by
  rcases hd with hd | hd
  · exact Or.inl hd
  · right; rw [h.2 a b hd]; exact hd

theorem Good.cell_eq {s : List Char} {N : Matrix} (hg : Good s N) {a b : Int}
    (ha : 0 ≤ a) (hb : b < s.length) (hd : Done N a b) : N.cell a b = R s a b := by
  by_cases hw : b - a ≤ MIN_LOOP_LENGTH
  · rw [hg.base a b hw, R_base s a b hw]
  · rcases hd with hd | hd
    · exact absurd hd hw
    · rcases hg.memo a b ha hb (not_le.mp hw) with h | h
      · exact absurd h hd
      · exact h

theorem forLoop_inv {σ : Type} (body : Int → σ → Except Fault σ) (Inv : Int → σ → Prop) :
    ∀ (m : Nat) (lo : Int) (s0 : σ), Inv lo s0 →
      (∀ t st, lo ≤ t → t < lo + m → Inv t st → ∃ st1, body t st = .ok st1 ∧ Inv (t + 1) st1) →
      ∃ st1, forLoop body m lo s0 = .ok st1 ∧ Inv (lo + m) st1 := by
  intro m
  induction m with
  | zero =>
    intro lo s0 h0 _
    exact ⟨s0, rfl, by simpa using h0⟩
  | succ m ih =>
    intro lo s0 h0 hstep
    obtain ⟨s1, hb, h1⟩ := hstep lo s0 le_rfl (by push_cast; omega) h0
    obtain ⟨s2, hl, h2⟩ := ih (lo + 1) s1 h1 (fun t st ht1 ht2 hi =>
      hstep t st (by omega) (by push_cast; omega) hi)
    refine ⟨s2, ?_, ?_⟩
    · simp only [forLoop, hb]; exact hl
    · have e : lo + ((m + 1 : Nat) : Int) = lo + 1 + (m : Int) := by push_cast; ring
      rw [e]; exact h2

theorem seqAt_ok (s : List Char) (t : Int) (h0 : 0 ≤ t) (h1 : t < s.length) :
    ∃ c, seqAt s t = .ok c := by
  unfold seqAt
  have hlt : t.toNat < s.length := by omega
  simp [not_lt.mpr h0, List.getElem?_eq_getElem hlt]

theorem complementaryAt_eq {s : List Char} {t j : Int} {a b : Char}
    (ha : seqAt s t = .ok a) (hb : seqAt s j = .ok b) :
    complementaryAt s t j = isComplementary a b := by
  unfold complementaryAt; rw [ha, hb]

theorem Matrix.read_ok (N : Matrix) (i j : Int) (hi0 : 0 ≤ i) (hi : i < N.size)
    (hj0 : 0 ≤ j) (hj : j < N.size) : N.read i j = .ok (N.cell i j) := by
  simp [Matrix.read, Matrix.inRange, hi0, hi, hj0, hj]

theorem Matrix.write_ok (N : Matrix) (i j v : Int) (hi0 : 0 ≤ i) (hi : i < N.size)
    (hj0 : 0 ≤ j) (hj : j < N.size) :
    N.write i j v = .ok ⟨N.size, fun a b => if a = i ∧ b = j then v else N.cell a b⟩ := by
  simp [Matrix.write, Matrix.inRange, hi0, hi, hj0, hj]

/-- Storing the recurrence value at an entry that is still unset keeps the
invariant, provided the entries it depends on are done. -/
theorem Good.store {s : List Char} {N : Matrix} (hg : Good s N) {i j : Int}
    (hi : 0 ≤ i) (hj : j < s.length) (hw : MIN_LOOP_LENGTH < j - i)
    (hd1 : Done N i (j - 1))
    (hd2 : ∀ t ∈ candidates s i j, Done N i (t - 1) ∧ Done N (t + 1) (j - 1)) :
    Good s ⟨N.size, fun a b => if a = i ∧ b = j then R s i j else N.cell a b⟩ ∧
    (∀ K : Matrix, Extends K N → K.cell i j = -1 →
      Extends K ⟨N.size, fun a b => if a = i ∧ b = j then R s i j else N.cell a b⟩) ∧
    Done ⟨N.size, fun a b => if a = i ∧ b = j then R s i j else N.cell a b⟩ i j := by
  have hR : R s i j ≠ -1 := by have := R_nonneg s i j; omega
  have mono : ∀ a b, Done N a b →
      Done ⟨N.size, fun a b => if a = i ∧ b = j then R s i j else N.cell a b⟩ a b := by
    intro a b hd
    rcases hd with hd | hd
    · exact Or.inl hd
    · right
      show (if a = i ∧ b = j then R s i j else N.cell a b) ≠ -1
      split
      · exact hR
      · exact hd
  refine ⟨⟨hg.size_eq, ?_, ?_, ?_⟩, ?_, ?_⟩
  · intro a b hab
    show (if a = i ∧ b = j then R s i j else N.cell a b) = 0
    rw [if_neg (by rintro ⟨rfl, rfl⟩; omega)]
    exact hg.base a b hab
  · intro a b ha hb hab
    show (if a = i ∧ b = j then R s i j else N.cell a b) = -1 ∨
      (if a = i ∧ b = j then R s i j else N.cell a b) = R s a b
    by_cases h : a = i ∧ b = j
    · rw [if_pos h]; right; rw [h.1, h.2]
    · rw [if_neg h]; exact hg.memo a b ha hb hab
  · intro a b ha hb hab hne
    by_cases h : a = i ∧ b = j
    · obtain ⟨rfl, rfl⟩ := h
      exact ⟨mono _ _ hd1, fun t ht => ⟨mono _ _ (hd2 t ht).1, mono _ _ (hd2 t ht).2⟩⟩
    · have hne1 : N.cell a b ≠ -1 := by
        have : (if a = i ∧ b = j then R s i j else N.cell a b) ≠ -1 := hne
        rwa [if_neg h] at this
      obtain ⟨c1, c2⟩ := hg.closed a b ha hb hab hne1
      exact ⟨mono _ _ c1, fun t ht => ⟨mono _ _ (c2 t ht).1, mono _ _ (c2 t ht).2⟩⟩
  · intro K hK hcell
    refine ⟨hK.1, fun a b hab => ?_⟩
    show (if a = i ∧ b = j then R s i j else N.cell a b) = K.cell a b
    rw [if_neg, hK.2 a b hab]
    rintro ⟨rfl, rfl⟩
    exact hab hcell
  · right
    show (if i = i ∧ j = j then R s i j else N.cell i j) ≠ -1
    rw [if_pos ⟨rfl, rfl⟩]; exact hR

theorem pairStep_spec (s : List Char) (call : Int → Int → Matrix → Except Fault (Int × Matrix))
    (N : Matrix) (i j t : Int) (st : Int × Matrix)
    (hi : 0 ≤ i) (hj : j < s.length) (hit : i ≤ t) (htj : t < j - MIN_LOOP_LENGTH)
    (hcall : ∀ a b : Int, 0 ≤ a → b < s.length → b - a < j - i → CallOK s call a b)
    (hinv : PairInv s N i j t st) :
    ∃ st1, pairStep call i j s t st = .ok st1 ∧ PairInv s N i j (t + 1) st1 := by
  obtain ⟨mp, M⟩ := st
  obtain ⟨hg, hext, hmp, hdone⟩ := hinv
  simp only at hg hext hmp hdone
  unfold MIN_LOOP_LENGTH at htj
  obtain ⟨a, ha⟩ := seqAt_ok s t (by omega) (by omega)
  obtain ⟨b, hb⟩ := seqAt_ok s j (by omega) hj
  have hc := complementaryAt_eq ha hb
  have hsucc : (t + 1 - i).toNat = (t - i).toNat + 1 := by omega
  have hti : i + (((t - i).toNat : Nat) : Int) = t := by omega
  have hcand := candidatesUpTo_succ s i j (t - i).toNat
  rw [hti] at hcand
  unfold pairStep
  simp only [ha, hb]
  by_cases hcomp : isComplementary a b = true
  · rw [if_pos hcomp]
    rw [hc, if_pos hcomp] at hcand
    obtain ⟨M1, e1, hg1, hx1, hd1⟩ := hcall i (t - 1) hi (by omega) (by omega) M hg
    obtain ⟨M2, e2, hg2, hx2, hd2⟩ := hcall (t + 1) (j - 1) (by omega) (by omega) (by omega) M1 hg1
    simp only [e1, e2]
    have key : ∀ v : Int, v = max mp (1 + R s i (t - 1) + R s (t + 1) (j - 1)) →
        PairInv s N i j (t + 1) (v, M2) := by
      intro v hv
      refine ⟨hg2, hext.trans (hx1.trans hx2), ?_, ?_⟩
      · simp only
        rw [hsucc, hcand, List.map_append, List.map_singleton, maxOf_append_singleton, ← hmp, hv]
      · simp only
        rw [hsucc, hcand]
        intro u hu
        rcases List.mem_append.mp hu with hu | hu
        · exact ⟨(hdone u hu).1.mono (hx1.trans hx2), (hdone u hu).2.mono (hx1.trans hx2)⟩
        · rw [List.mem_singleton] at hu
          subst hu
          exact ⟨hd1.mono hx2, hd2⟩
    by_cases hgt : 1 + R s i (t - 1) + R s (t + 1) (j - 1) > mp
    · rw [if_pos hgt]
      exact ⟨_, rfl, key _ (by rw [max_eq_right (le_of_lt hgt)])⟩
    · rw [if_neg hgt]
      exact ⟨_, rfl, key _ (by rw [max_eq_left (not_lt.mp hgt)])⟩
  · rw [if_neg hcomp]
    rw [hc, if_neg hcomp, List.append_nil] at hcand
    refine ⟨_, rfl, hg, hext, ?_, ?_⟩
    · simp only; rw [hsucc, hcand]; exact hmp
    · simp only; rw [hsucc, hcand]; exact hdone

theorem OPT_spec (s : List Char) :
    ∀ (fuel : Nat) (i j : Int), 0 ≤ i → j < s.length → (j - i).toNat < fuel →
      CallOK s (fun a b M => OPT fuel a b s M) i j := by
  intro fuel
  induction fuel with
  | zero => intro i j _ _ h; omega
  | succ fuel ih =>
    intro i j hi hj hf N hg
    show ∃ M1, OPT (fuel + 1) i j s N = .ok (R s i j, M1) ∧ _
    unfold OPT
    by_cases hw : j - i ≤ MIN_LOOP_LENGTH
    · rw [if_pos hw, R_base s i j hw]
      exact ⟨N, rfl, hg, Extends.refl N, Or.inl hw⟩
    · rw [if_neg hw]
      have hw1 : MIN_LOOP_LENGTH < j - i := not_le.mp hw
      have hw2 : 4 < j - i := hw1
      have hsz := hg.size_eq
      rw [Matrix.read_ok N i j hi (by omega) (by omega) (by omega)]
      simp only
      by_cases hv : N.cell i j ≠ -1
      · rw [if_pos hv]
        refine ⟨N, ?_, hg, Extends.refl N, Or.inr hv⟩
        rw [hg.cell_eq hi hj (Or.inr hv)]
      · rw [if_neg hv]
        have hv1 : N.cell i j = -1 := not_not.mp hv
        obtain ⟨N1, e1, hg1, hx1, hd1⟩ := ih i (j - 1) hi (by omega) (by omega) N hg
        simp only at e1
        rw [e1]
        simp only
        have hloop := forLoop_inv (pairStep (fun a b M => OPT fuel a b s M) i j s)
          (fun t st => PairInv s N1 i j t st ∧ True) (j - MIN_LOOP_LENGTH - i).toNat i (0, N1)
          ⟨⟨hg1, Extends.refl N1, by simp [candidatesUpTo, maxOf], by simp [candidatesUpTo]⟩,
            trivial⟩
          (fun t st ht1 ht2 hinv => by
            obtain ⟨st1, hs1, hs2⟩ := pairStep_spec s (fun a b M => OPT fuel a b s M) N1 i j t st
              hi hj ht1 (by unfold MIN_LOOP_LENGTH at *; omega)
              (fun a b ha hb hab => ih a b ha hb (by omega)) hinv.1
            exact ⟨st1, hs1, hs2, trivial⟩)
        obtain ⟨⟨mp, N2⟩, hl, ⟨hg2, hx2, hmp, hdone⟩, -⟩ := hloop
        simp only at hg2 hx2 hmp hdone
        rw [hl]
        simp only
        have hm : (i + ((j - MIN_LOOP_LENGTH - i).toNat : Int) - i).toNat =
            (j - MIN_LOOP_LENGTH - i).toNat := by omega
        rw [hm] at hmp hdone
        have hRs := R_step s i j hw
        change R s i j = max (R s i (j - 1)) (maxOf ((candidatesUpTo s i j
          (j - MIN_LOOP_LENGTH - i).toNat).map _)) at hRs
        rw [← hmp] at hRs
        have hsz2 := hg2.size_eq
        have hst := Good.store hg2 hi hj hw1 (hd1.mono hx2) hdone
        obtain ⟨hg3, hx3, hd3⟩ := hst
        have hwr : ∀ v : Int, v = R s i j → ∃ M1,
            (match N2.write i j v with
              | .error e => (.error e : Except Fault (Int × Matrix))
              | .ok N3 => .ok (v, N3)) = .ok (R s i j, M1) ∧
            Good s M1 ∧ Extends N M1 ∧ Done M1 i j := by
          intro v hv
          rw [Matrix.write_ok N2 i j v hi (by omega) (by omega) (by omega), hv]
          exact ⟨_, rfl, hg3, hx3 N (hx1.trans hx2) hv1, hd3⟩
        by_cases hgt : R s i (j - 1) > mp
        · rw [if_pos hgt]
          exact hwr _ (by rw [hRs, max_eq_left (le_of_lt hgt)])
        · rw [if_neg hgt]
          exact hwr _ (by rw [hRs, max_eq_right (not_lt.mp hgt)])

theorem set_length_append {α : Type} (l1 l2 : List α) (a x : α) :
    (l1 ++ a :: l2).set l1.length x = l1 ++ x :: l2 := by
  induction l1 with
  | nil => rfl
  | cons y ys ih => simp [ih]

theorem Trace.get_ok {s : List Char} {N : Matrix} (hg : Good s N) (tr : Trace) (a b : Int)
    (ha0 : 0 ≤ a) (ha : a < s.length) (hb0 : 0 ≤ b) (hb : b < s.length) (hd : Done N a b) :
    tr.get N a b = .ok (R s a b, ⟨tr.struct, tr.marks, tr.reads ++ [(a, b, R s a b)]⟩) ∧
      ReadOK s N (a, b, R s a b) := by
  have hsz := hg.size_eq
  have hc := hg.cell_eq ha0 hb hd
  refine ⟨?_, ⟨ha0, ha⟩, ⟨hb0, hb⟩, hd, hc.symm, rfl⟩
  unfold Trace.get
  rw [Matrix.read_ok N a b ha0 (by omega) hb0 (by omega), hc]

theorem Trace.put_ok (st : List Char) (mk : List (Int × Int)) (rd : List (Int × Int × Int))
    (k : Int) (c : Char) (h0 : 0 ≤ k) (h1 : k < st.length) :
    Trace.put ⟨st, mk, rd⟩ k c = .ok ⟨st.set k.toNat c, mk, rd⟩ := by
  unfold Trace.put
  simp only
  rw [if_pos ⟨h0, h1⟩]

theorem Folded.dots (s : List Char) (i : Int) (len : Nat) :
    Folded s i (List.replicate len '.') [] := by
  induction len with
  | zero => exact Folded.nil i
  | succ m ih => rw [List.replicate_succ']; exact Folded.dot ih

theorem put_pair (pre suf : List Char) (d e : Nat) (mk : List (Int × Int))
    (rd : List (Int × Int × Int)) (k j : Int)
    (hk : k = (pre.length : Int) + d) (hj : j = (pre.length : Int) + d + 1 + e) :
    ∃ tr4, Trace.put ⟨pre ++ List.replicate (d + 1 + e + 1) '.' ++ suf, mk, rd⟩ k '(' = .ok tr4 ∧
      tr4.put j ')' =
        .ok ⟨pre ++ List.replicate d '.' ++ ('(' :: (List.replicate e '.' ++ ')' :: suf)),
          mk, rd⟩ := by
  have e0 : pre ++ List.replicate (d + 1 + e + 1) '.' ++ suf =
      (pre ++ List.replicate d '.') ++ '.' :: (List.replicate e '.' ++ '.' :: suf) := by
    rw [List.replicate_succ', List.replicate_add, List.replicate_add]
    simp [List.append_assoc]
  have hkn : k.toNat = (pre ++ List.replicate d '.').length := by
    simp only [List.length_append, List.length_replicate]; omega
  have hjn : j.toNat = ((pre ++ List.replicate d '.') ++ '(' :: List.replicate e '.').length := by
    simp only [List.length_append, List.length_replicate, List.length_cons]; omega
  have e1 : (pre ++ List.replicate d '.') ++ '(' :: (List.replicate e '.' ++ '.' :: suf) =
      ((pre ++ List.replicate d '.') ++ '(' :: List.replicate e '.') ++ '.' :: suf := by
    simp [List.append_assoc]
  refine ⟨⟨(pre ++ List.replicate d '.') ++ '(' :: (List.replicate e '.' ++ '.' :: suf), mk, rd⟩,
    ?_, ?_⟩
  · rw [e0, Trace.put_ok _ _ _ k '(' (by omega)
      (by simp only [List.length_append, List.length_replicate, List.length_cons]
          push_cast; omega), hkn, set_length_append]
  · rw [e1, Trace.put_ok _ _ _ j ')' (by omega)
      (by simp only [List.length_append, List.length_replicate, List.length_cons]
          push_cast; omega), hjn, set_length_append]
    simp [List.append_assoc]

theorem scanPartner_spec (s : List Char) (N : Matrix) (hg : Good s N)
    (call : Int → Int → Trace → Except Fault Trace) (i j : Int) (len : Nat)
    (hi : 0 ≤ i) (hj : j = i + len - 1) (hw : MIN_LOOP_LENGTH < j - i) (hne : N.cell i j ≠ -1)
    (pre suf : List Char) (mk : List (Int × Int))
    (hpre : (pre.length : Int) = i) (hsuf : i + len + suf.length = s.length)
    (hcall : ∀ (a : Int) (l : Nat), 0 ≤ a → a + l ≤ s.length → l < len →
      Done N a (a + l - 1) → TraceOK s N call a l) :
    ∀ (m : Nat) (k : Int) (rd : List (Int × Int × Int)), i ≤ k →
      (∃ t, k ≤ t ∧ t ∈ candidates s i j ∧
        1 + R s i (t - 1) + R s (t + 1) (j - 1) = R s i j) →
      (j - k).toNat ≤ m →
      ∃ w P rs, scanPartner call i j N s m k ⟨pre ++ List.replicate len '.' ++ suf, mk, rd⟩ =
          .ok ⟨pre ++ w ++ suf, mk ++ P, rd ++ rs⟩ ∧
        Folded s i w P ∧ w.length = len ∧ (P.length : Int) = R s i j ∧
        ∀ r ∈ rs, ReadOK s N r := by
  have hw4 : 4 < j - i := hw
  have hjn : j < s.length := by omega
  intro m
  induction m with
  | zero =>
    intro k rd _ ⟨t, hkt, htc, _⟩ hm
    have := (mem_candidates.mp htc).1.2
    unfold MIN_LOOP_LENGTH at this
    omega
  | succ m ih =>
    intro k rd hik ⟨t, hkt, htc, hFt⟩ hm
    have htr := mem_candidates.mp htc
    have ht4 : t < j - 4 := htr.1.2
    obtain ⟨a, ha⟩ := seqAt_ok s k (by omega) (by omega)
    obtain ⟨b, hb⟩ := seqAt_ok s j (by omega) hjn
    have hc := complementaryAt_eq ha hb
    unfold scanPartner
    simp only [ha, hb]
    by_cases hcomp : isComplementary a b = true
    · rw [if_pos hcomp]
      have hkc : k ∈ candidates s i j :=
        mem_candidates.mpr ⟨⟨hik, by unfold MIN_LOOP_LENGTH; omega⟩, by rw [hc]; exact hcomp⟩
      obtain ⟨-, c2⟩ := hg.closed i j hi hjn hw hne
      obtain ⟨dl, dr⟩ := c2 k hkc
      have hscore : ∃ rs0, (if k - 1 ≥ 0 then
            Trace.get ⟨pre ++ List.replicate len '.' ++ suf, mk, rd⟩ N i (k - 1)
          else .ok (0, ⟨pre ++ List.replicate len '.' ++ suf, mk, rd⟩)) =
            .ok (R s i (k - 1), ⟨pre ++ List.replicate len '.' ++ suf, mk, rd ++ rs0⟩) ∧
          ∀ r ∈ rs0, ReadOK s N r := by
        by_cases hk1 : k - 1 ≥ 0
        · rw [if_pos hk1]
          obtain ⟨g1, g2⟩ := Trace.get_ok hg ⟨pre ++ List.replicate len '.' ++ suf, mk, rd⟩
            i (k - 1) hi (by omega) hk1 (by omega) dl
          exact ⟨[(i, k - 1, R s i (k - 1))], g1, fun r hr => by
            rw [List.mem_singleton] at hr; rw [hr]; exact g2⟩
        · rw [if_neg hk1]
          refine ⟨[], ?_, fun r hr => by simp at hr⟩
          rw [R_base s i (k - 1) (by unfold MIN_LOOP_LENGTH; omega), List.append_nil]
      obtain ⟨rs0, hs0, hr0⟩ := hscore
      rw [hs0]
      simp only
      obtain ⟨g1, g1r⟩ := Trace.get_ok hg
        ⟨pre ++ List.replicate len '.' ++ suf, mk, rd ++ rs0⟩ i j hi (by omega) (by omega) hjn
        (Or.inr hne)
      rw [g1]
      simp only
      obtain ⟨g2, g2r⟩ := Trace.get_ok hg
        ⟨pre ++ List.replicate len '.' ++ suf, mk, rd ++ rs0 ++ [(i, j, R s i j)]⟩ (k + 1) (j - 1)
        (by omega) (by omega) (by omega) (by omega) dr
      rw [g2]
      simp only
      have hrall : ∀ r ∈ rs0 ++ [(i, j, R s i j)] ++ [(k + 1, j - 1, R s (k + 1) (j - 1))],
          ReadOK s N r := by
        intro r hr
        simp only [List.mem_append, List.mem_singleton] at hr
        rcases hr with (hr | hr) | hr
        · exact hr0 r hr
        · rw [hr]; exact g1r
        · rw [hr]; exact g2r
      by_cases heq : R s i j = 1 + R s i (k - 1) + R s (k + 1) (j - 1)
      · rw [if_pos heq]
        obtain ⟨d, hd⟩ : ∃ d : Nat, k = i + d := ⟨(k - i).toNat, by omega⟩
        obtain ⟨e, he⟩ : ∃ e : Nat, j = i + d + 1 + e := ⟨(j - k - 1).toNat, by omega⟩
        have hlen : len = d + 1 + e + 1 := by omega
        subst hlen
        obtain ⟨tr4, p1, p2⟩ := put_pair pre suf d e mk
          (rd ++ rs0 ++ [(i, j, R s i j)] ++ [(k + 1, j - 1, R s (k + 1) (j - 1))]) k j
          (by omega) (by omega)
        rw [p1]
        simp only
        rw [p2]
        simp only [Trace.noteMark]
        have hk1 : k - 1 = i + (d : Int) - 1 := by omega
        have dl1 : Done N i (i + (d : Int) - 1) := by rw [← hk1]; exact dl
        obtain ⟨w1, P1, rs1, t1, f1, l1, n1, r1⟩ := hcall i d hi (by push_cast at hsuf; omega)
          (by omega) dl1 pre ('(' :: (List.replicate e '.' ++ ')' :: suf)) (mk ++ [(k, j)])
          (rd ++ rs0 ++ [(i, j, R s i j)] ++ [(k + 1, j - 1, R s (k + 1) (j - 1))]) hpre
          (by simp only [List.length_cons, List.length_append, List.length_replicate]
              push_cast at hsuf ⊢; omega)
        rw [← hk1] at t1
        rw [t1]
        simp only
        have hj1 : j - 1 = k + 1 + (e : Int) - 1 := by omega
        have dr1 : Done N (k + 1) (k + 1 + (e : Int) - 1) := by rw [← hj1]; exact dr
        obtain ⟨w2, P2, rs2, t2, f2, l2, n2, r2⟩ := hcall (k + 1) e (by omega)
          (by push_cast at hsuf; omega) (by omega) dr1 (pre ++ w1 ++ ['(']) (')' :: suf)
          (mk ++ [(k, j)] ++ P1)
          (rd ++ rs0 ++ [(i, j, R s i j)] ++ [(k + 1, j - 1, R s (k + 1) (j - 1))] ++ rs1)
          (by simp only [List.length_append, List.length_cons, List.length_nil, l1]
              push_cast; omega)
          (by simp only [List.length_cons]; push_cast at hsuf ⊢; omega)
        have e3 : pre ++ w1 ++ '(' :: (List.replicate e '.' ++ ')' :: suf) =
            pre ++ w1 ++ ['('] ++ List.replicate e '.' ++ ')' :: suf := by
          simp [List.append_assoc]
        rw [← hj1] at t2
        rw [e3, t2]
        refine ⟨w1 ++ '(' :: (w2 ++ [')']), (k, j) :: (P1 ++ P2),
          rs0 ++ [(i, j, R s i j)] ++ [(k + 1, j - 1, R s (k + 1) (j - 1))] ++ rs1 ++ rs2,
          ?_, ?_, ?_, ?_, ?_⟩
        · simp [List.append_assoc]
        · have hkk : k = i + (w1.length : Int) := by rw [l1]; exact hd
          have hjj : j = i + (w1.length : Int) + 1 + (w2.length : Int) := by rw [l1, l2]; exact he
          have f2a : Folded s (i + (w1.length : Int) + 1) w2 P2 := by rw [← hkk]; exact f2
          have := Folded.pair f1 f2a (by rw [l2]; unfold MIN_LOOP_LENGTH; omega)
            (by rw [← hjj, ← hkk, hc]; exact hcomp)
          rw [← hjj, ← hkk] at this
          exact this
        · simp only [List.length_append, List.length_cons, List.length_nil, l1, l2]; omega
        · simp only [List.length_cons, List.length_append]
          push_cast
          rw [n1, n2, ← hk1, ← hj1, heq]; ring
        · intro r hr
          simp only [List.mem_append] at hr
          rcases hr with (hr | hr) | hr
          · exact hrall r (by simpa only [List.mem_append] using hr)
          · exact r1 r hr
          · exact r2 r hr
      · rw [if_neg heq]
        have htk : t ≠ k := by
          rintro rfl
          exact heq hFt.symm
        obtain ⟨w, P, rs, h1, h2, h3, h4, h5⟩ := ih (k + 1)
          (rd ++ rs0 ++ [(i, j, R s i j)] ++ [(k + 1, j - 1, R s (k + 1) (j - 1))])
          (by omega) ⟨t, by omega, htc, hFt⟩ (by omega)
        refine ⟨w, P, rs0 ++ [(i, j, R s i j)] ++ [(k + 1, j - 1, R s (k + 1) (j - 1))] ++ rs,
          ?_, h2, h3, h4, ?_⟩
        · rw [h1]; simp [List.append_assoc]
        · intro r hr
          rcases List.mem_append.mp hr with hr | hr
          · exact hrall r hr
          · exact h5 r hr
    · rw [if_neg hcomp]
      have htk : t ≠ k := by
        rintro rfl
        rw [hc] at htr
        exact hcomp htr.2
      exact ih (k + 1) rd (by omega) ⟨t, by omega, htc, hFt⟩ (by omega)

theorem exists_best_candidate (s : List Char) (i j : Int) (hne : R s i j ≠ R s i (j - 1)) :
    MIN_LOOP_LENGTH < j - i ∧ ∃ t, t ∈ candidates s i j ∧
      1 + R s i (t - 1) + R s (t + 1) (j - 1) = R s i j := by
  have hw : ¬ j - i ≤ MIN_LOOP_LENGTH := by
    intro h
    apply hne
    rw [R_base s i j h, R_base s i (j - 1) (by unfold MIN_LOOP_LENGTH at *; omega)]
  refine ⟨not_le.mp hw, ?_⟩
  have hs := R_step s i j hw
  have hu := R_nonneg s i (j - 1)
  rcases maxOf_eq ((candidates s i j).map
    (fun t => 1 + R s i (t - 1) + R s (t + 1) (j - 1))) with h0 | hm
  · exfalso
    apply hne
    rw [hs, h0, max_eq_left hu]
  · obtain ⟨t, ht, hF⟩ := List.mem_map.mp hm
    refine ⟨t, ht, ?_⟩
    rw [hF, hs]
    rcases le_total (R s i (j - 1)) (maxOf ((candidates s i j).map
      (fun t => 1 + R s i (t - 1) + R s (t + 1) (j - 1)))) with h | h
    · rw [max_eq_right h]
    · exfalso
      apply hne
      rw [hs, max_eq_left h]

theorem traceback_spec (s : List Char) (N : Matrix) (hg : Good s N) :
    ∀ (fuel : Nat) (i : Int) (len : Nat), 0 ≤ i → i + len ≤ s.length → len < fuel →
      Done N i (i + len - 1) → TraceOK s N (fun a b t => traceback fuel a b N t s) i len := by
  intro fuel
  induction fuel with
  | zero => intro i len _ _ h; omega
  | succ fuel ih =>
    intro i len hi hn hf hd pre suf mk rd hpre hsuf
    show ∃ w P rs, traceback (fuel + 1) i (i + len - 1) N _ s = _ ∧ _
    unfold traceback
    by_cases hle : i + (len : Int) - 1 ≤ i
    · rw [if_pos hle]
      refine ⟨List.replicate len '.', [], [], ?_, Folded.dots s i len, List.length_replicate _ _,
        ?_, fun r hr => by simp at hr⟩
      · simp
      · rw [R_base s i _ (by unfold MIN_LOOP_LENGTH; omega)]; rfl
    · rw [if_neg hle]
      obtain ⟨l, rfl⟩ : ∃ l : Nat, len = l + 1 := ⟨len - 1, by omega⟩
      have hj1 : i + ((l + 1 : Nat) : Int) - 1 - 1 = i + (l : Int) - 1 := by push_cast; ring
      have hd1 : Done N i (i + ((l + 1 : Nat) : Int) - 1 - 1) := by
        by_cases hw : i + ((l + 1 : Nat) : Int) - 1 - i ≤ MIN_LOOP_LENGTH
        · left; omega
        · rcases hd with hd | hd
          · exact absurd hd hw
          · exact (hg.closed i _ hi (by omega) (not_le.mp hw) hd).1
      obtain ⟨g1, g1r⟩ := Trace.get_ok hg
        ⟨pre ++ List.replicate (l + 1) '.' ++ suf, mk, rd⟩ i (i + ((l + 1 : Nat) : Int) - 1)
        hi (by omega) (by omega) (by omega) hd
      rw [g1]
      simp only
      obtain ⟨g2, g2r⟩ := Trace.get_ok hg
        ⟨pre ++ List.replicate (l + 1) '.' ++ suf, mk,
          rd ++ [(i, i + ((l + 1 : Nat) : Int) - 1, R s i (i + ((l + 1 : Nat) : Int) - 1))]⟩
        i (i + ((l + 1 : Nat) : Int) - 1 - 1) hi (by omega) (by omega) (by omega) hd1
      rw [g2]
      simp only
      have hrall : ∀ r ∈ [(i, i + ((l + 1 : Nat) : Int) - 1, R s i (i + ((l + 1 : Nat) : Int) - 1)),
          (i, i + ((l + 1 : Nat) : Int) - 1 - 1, R s i (i + ((l + 1 : Nat) : Int) - 1 - 1))],
          ReadOK s N r := by
        intro r hr
        simp only [List.mem_cons, List.mem_singleton, List.not_mem_nil, or_false] at hr
        rcases hr with hr | hr
        · rw [hr]; exact g1r
        · rw [hr]; exact g2r
      by_cases heq : R s i (i + ((l + 1 : Nat) : Int) - 1) = R s i (i + ((l + 1 : Nat) : Int) - 1 - 1)
      · rw [if_pos heq]
        have hd2 : Done N i (i + (l : Int) - 1) := by rw [← hj1]; exact hd1
        obtain ⟨w, P, rs, t1, f1, l1, n1, r1⟩ := ih i l hi (by push_cast at hn; omega) (by omega)
          hd2 pre ('.' :: suf) mk
          (rd ++ [(i, i + ((l + 1 : Nat) : Int) - 1, R s i (i + ((l + 1 : Nat) : Int) - 1))] ++
            [(i, i + ((l + 1 : Nat) : Int) - 1 - 1, R s i (i + ((l + 1 : Nat) : Int) - 1 - 1))])
          hpre (by simp only [List.length_cons]; push_cast at hsuf ⊢; omega)
        simp only at t1
        rw [← hj1] at t1
        have e3 : pre ++ List.replicate (l + 1) '.' ++ suf =
            pre ++ List.replicate l '.' ++ '.' :: suf := by
          rw [List.replicate_succ']; simp [List.append_assoc]
        rw [e3, t1]
        refine ⟨w ++ ['.'], P,
          [(i, i + ((l + 1 : Nat) : Int) - 1, R s i (i + ((l + 1 : Nat) : Int) - 1)),
            (i, i + ((l + 1 : Nat) : Int) - 1 - 1, R s i (i + ((l + 1 : Nat) : Int) - 1 - 1))] ++ rs,
          ?_, Folded.dot f1, ?_, ?_, ?_⟩
        · simp [List.append_assoc]
        · simp [l1]
        · rw [n1, heq, hj1]
        · intro r hr
          rcases List.mem_append.mp hr with hr | hr
          · exact hrall r hr
          · exact r1 r hr
      · rw [if_neg heq]
        obtain ⟨hw, t, htc, hFt⟩ := exists_best_candidate s i _ heq
        have hne : N.cell i (i + ((l + 1 : Nat) : Int) - 1) ≠ -1 := by
          rcases hd with hd | hd
          · exact absurd hd (not_le.mpr hw)
          · exact hd
        obtain ⟨w, P, rs, h1, h2, h3, h4, h5⟩ := scanPartner_spec s N hg
          (fun a b t => traceback fuel a b N t s) i (i + ((l + 1 : Nat) : Int) - 1) (l + 1)
          hi rfl hw hne pre suf mk hpre hsuf
          (fun a l1 ha hal hl hdone => ih a l1 ha hal (by omega) hdone)
          (i + ((l + 1 : Nat) : Int) - 1 - i).toNat i
          (rd ++ [(i, i + ((l + 1 : Nat) : Int) - 1, R s i (i + ((l + 1 : Nat) : Int) - 1))] ++
            [(i, i + ((l + 1 : Nat) : Int) - 1 - 1, R s i (i + ((l + 1 : Nat) : Int) - 1 - 1))])
          le_rfl ⟨t, (mem_candidates.mp htc).1.1, htc, hFt⟩ le_rfl
        rw [h1]
        refine ⟨w, P,
          [(i, i + ((l + 1 : Nat) : Int) - 1, R s i (i + ((l + 1 : Nat) : Int) - 1)),
            (i, i + ((l + 1 : Nat) : Int) - 1 - 1, R s i (i + ((l + 1 : Nat) : Int) - 1 - 1))] ++ rs,
          ?_, h2, h3, h4, ?_⟩
        · simp [List.append_assoc]
        · intro r hr
          rcases List.mem_append.mp hr with hr | hr
          · exact hrall r hr
          · exact h5 r hr

theorem initMatrix_row (n : Nat) (i : Int) (hi0 : 0 ≤ i) (hi : i < n) (M : Matrix)
    (hM : M.size = n ∧ ∀ a b : Int, M.cell a b =
      if 0 ≤ a ∧ a + 1 + MIN_LOOP_LENGTH ≤ b ∧ b < n ∧ a < i then -1 else 0) :
    ∃ M1, forLoop (fun j M1 => M1.write i j (-1))
        ((n : Int) - (i + 1 + MIN_LOOP_LENGTH)).toNat (i + 1 + MIN_LOOP_LENGTH) M = .ok M1 ∧
      M1.size = n ∧ ∀ a b : Int, M1.cell a b =
        if 0 ≤ a ∧ a + 1 + MIN_LOOP_LENGTH ≤ b ∧ b < n ∧ a < i + 1 then -1 else 0 := by
  obtain ⟨M1, h1, h2, h3⟩ := forLoop_inv (fun j M1 => M1.write i j (-1))
    (fun j K => K.size = n ∧ ∀ a b : Int, K.cell a b =
      if 0 ≤ a ∧ a + 1 + MIN_LOOP_LENGTH ≤ b ∧ b < n ∧ (a < i ∨ (a = i ∧ b < j)) then -1 else 0)
    ((n : Int) - (i + 1 + MIN_LOOP_LENGTH)).toNat (i + 1 + MIN_LOOP_LENGTH) M
    ⟨hM.1, fun a b => by
      rw [hM.2 a b]
      unfold MIN_LOOP_LENGTH
      split_ifs <;> first | rfl | omega⟩
    (fun j K hj1 hj2 hK => by
      unfold MIN_LOOP_LENGTH at hj1 hj2
      refine ⟨_, Matrix.write_ok K i j (-1) hi0 (by rw [hK.1]; exact hi) (by omega)
        (by rw [hK.1]; omega), hK.1, fun a b => ?_⟩
      show (if a = i ∧ b = j then -1 else K.cell a b) = _
      rw [hK.2 a b]
      unfold MIN_LOOP_LENGTH
      split_ifs <;> first | rfl | omega)
  refine ⟨M1, h1, h2, fun a b => ?_⟩
  rw [h3 a b]
  unfold MIN_LOOP_LENGTH
  split_ifs <;> first | rfl | omega

theorem initMatrix_fresh (n : Nat) :
    ∃ N0, initMatrix (Matrix.alloc n) n = .ok N0 ∧ Fresh n N0 := by
  unfold initMatrix
  obtain ⟨M1, h1, h2, h3⟩ := forLoop_inv
    (fun i M => forLoop (fun j M1 => M1.write i j (-1))
      ((n : Int) - (i + 1 + MIN_LOOP_LENGTH)).toNat (i + 1 + MIN_LOOP_LENGTH) M)
    (fun i K => K.size = n ∧ ∀ a b : Int, K.cell a b =
      if 0 ≤ a ∧ a + 1 + MIN_LOOP_LENGTH ≤ b ∧ b < n ∧ a < i then -1 else 0)
    (n : Int).toNat 0 (Matrix.alloc n)
    ⟨rfl, fun a b => by
      show (0 : Int) = _
      split_ifs <;> first | rfl | omega⟩
    (fun i K hi1 hi2 hK => initMatrix_row n i hi1 (by omega) K hK)
  refine ⟨M1, h1, h2, fun a b => ?_⟩
  rw [h3 a b]
  unfold MIN_LOOP_LENGTH
  split_ifs <;> first | rfl | omega

theorem Fresh.good {s : List Char} {N : Matrix} (h : Fresh s.length N) : Good s N := by
  refine ⟨h.1, ?_, ?_, ?_⟩
  · intro a b hab
    rw [h.2 a b, if_neg]
    unfold MIN_LOOP_LENGTH at *
    omega
  · intro a b ha hb hab
    left
    rw [h.2 a b, if_pos]
    unfold MIN_LOOP_LENGTH at *
    exact ⟨ha, by omega, hb⟩
  · intro a b ha hb hab hne
    exfalso
    apply hne
    rw [h.2 a b, if_pos]
    unfold MIN_LOOP_LENGTH at *
    exact ⟨ha, by omega, hb⟩

/-- On a table whose entry `(i, j)` already holds `v`, the write `N[i][j] = v`
changes nothing. -/
theorem Matrix.write_same (N : Matrix) (i j : Int) (hi0 : 0 ≤ i) (hi : i < N.size)
    (hj0 : 0 ≤ j) (hj : j < N.size) : N.write i j (N.cell i j) = .ok N := by
  rw [Matrix.write_ok N i j _ hi0 hi hj0 hj]
  congr 1
  cases N with
  | mk size cell =>
    congr 1
    funext a b
    by_cases h : a = i ∧ b = j
    · obtain ⟨rfl, rfl⟩ := h
      simp
    · simp only [if_neg h]

/-- The run of `nussinovAlgorithm` on a non-empty sequence, in full. -/
theorem nussinovAlgorithm_run (s : List Char) (hn : 1 ≤ s.length) :
    ∃ (N0 N : Matrix) (w : List Char) (P : List (Int × Int)) (rs : List (Int × Int × Int)),
      initMatrix (Matrix.alloc s.length) s.length = .ok N0 ∧ Fresh s.length N0 ∧
      OPT (s.length + 1) 0 ((s.length : Int) - 1) s N0 = .ok (R s 0 ((s.length : Int) - 1), N) ∧
      nussinovAlgorithm s = .ok (N, ⟨w, P, rs⟩) ∧
      Good s N ∧ Extends N0 N ∧ Done N 0 ((s.length : Int) - 1) ∧
      N.cell 0 ((s.length : Int) - 1) = R s 0 ((s.length : Int) - 1) ∧
      Folded s 0 w P ∧ w.length = s.length ∧
      (P.length : Int) = R s 0 ((s.length : Int) - 1) ∧ ∀ r ∈ rs, ReadOK s N r := by
  obtain ⟨N0, hinit, hfresh⟩ := initMatrix_fresh s.length
  obtain ⟨N, hopt, hg, hx, hd⟩ := OPT_spec s (s.length + 1) 0 ((s.length : Int) - 1) le_rfl
    (by omega) (by omega) N0 hfresh.good
  simp only at hopt
  have hcell := hg.cell_eq (le_refl 0) (by omega : (s.length : Int) - 1 < s.length) hd
  have hsz := hg.size_eq
  have hwr : N.write 0 ((s.length : Int) - 1) (R s 0 ((s.length : Int) - 1)) = .ok N := by
    rw [← hcell]
    exact Matrix.write_same N 0 _ le_rfl (by omega) (by omega) (by omega)
  have hd2 : Done N 0 (0 + (s.length : Int) - 1) := by rw [zero_add]; exact hd
  obtain ⟨w, P, rs, t1, f1, l1, n1, r1⟩ := traceback_spec s N hg (s.length + 1) 0 s.length le_rfl
    (by omega) (by omega) hd2 [] [] [] [] rfl (by simp)
  simp only [zero_add, List.nil_append, List.append_nil] at t1 n1
  refine ⟨N0, N, w, P, rs, hinit, hfresh, hopt, ?_, hg, hx, hd, hcell, f1, l1, n1, r1⟩
  unfold nussinovAlgorithm
  simp only [hinit, hopt, hwr, t1]

theorem ValidPairing.restrict {s : List Char} {i j i1 j1 : Int} {P Q : Finset (Int × Int)}
    (h : ValidPairing s i j P) (hsub : Q ⊆ P) (hwin : ∀ q ∈ Q, i1 ≤ q.1 ∧ q.2 ≤ j1) :
    ValidPairing s i1 j1 Q := by
  refine ⟨fun q hq => ?_, fun p hp q hq => h.apart p (hsub hp) q (hsub hq),
    fun p hp q hq => h.nocross p (hsub hp) q (hsub hq)⟩
  obtain ⟨-, h2, -, h4, h5⟩ := h.ok q (hsub hq)
  exact ⟨(hwin q hq).1, h2, (hwin q hq).2, h4, h5⟩

theorem R_mono_right (s : List Char) (i j : Int) : R s i (j - 1) ≤ R s i j := by
  by_cases h : j - i ≤ MIN_LOOP_LENGTH
  · rw [R_base s i j h, R_base s i (j - 1) (by unfold MIN_LOOP_LENGTH at *; omega)]
  · rw [R_step s i j h]; exact le_max_left _ _

theorem R_ge_pair (s : List Char) (i j t : Int) (ht : t ∈ candidates s i j) :
    1 + R s i (t - 1) + R s (t + 1) (j - 1) ≤ R s i j := by
  have h : ¬ j - i ≤ MIN_LOOP_LENGTH := by
    have := (mem_candidates.mp ht).1
    omega
  rw [R_step s i j h]
  exact le_max_of_le_right (le_maxOf (List.mem_map.mpr ⟨t, ht, rfl⟩))

theorem R_upper (s : List Char) :
    ∀ (w : Nat) (i j : Int), (j - i).toNat ≤ w →
      ∀ P, ValidPairing s i j P → (P.card : Int) ≤ R s i j := by
  intro w
  induction w with
  | zero =>
    intro i j hw P hP
    have hE : P = ∅ := by
      apply Finset.eq_empty_of_forall_not_mem
      intro p hp
      obtain ⟨h1, h2, h3, -, -⟩ := hP.ok p hp
      omega
    rw [hE, Finset.card_empty]
    exact R_nonneg s i j
  | succ w ih =>
    intro i j hw P hP
    by_cases hex : ∃ p ∈ P, p.2 = j
    · obtain ⟨p, hp, hpj⟩ := hex
      obtain ⟨o1, o2, o3, o4, o5⟩ := hP.ok p hp
      have o4a : 4 < p.2 - p.1 := o4
      have hcand : p.1 ∈ candidates s i j :=
        mem_candidates.mpr ⟨⟨o1, by unfold MIN_LOOP_LENGTH; omega⟩, by rw [← hpj]; exact o5⟩
      have hrest : ∀ q ∈ P.erase p, i ≤ q.1 ∧ q.1 < q.2 ∧ q.2 < j ∧
          (q.2 < p.1 ∨ p.1 < q.1) := by
        intro q hq
        obtain ⟨hne, hqP⟩ := Finset.mem_erase.mp hq
        obtain ⟨q1, q2, q3, -, -⟩ := hP.ok q hqP
        have ha := hP.apart q hqP p hp hne
        have hc1 := hP.nocross q hqP p hp
        unfold SharesIndex at ha
        unfold Crosses at hc1
        refine ⟨q1, q2, by omega, ?_⟩
        by_contra hcon
        omega
      have hV1 : ValidPairing s i (p.1 - 1) ((P.erase p).filter (fun q => q.2 < p.1)) :=
        hP.restrict (fun q hq => Finset.mem_of_mem_erase (Finset.mem_of_mem_filter q hq))
          (fun q hq => by
            obtain ⟨hq1, hq2⟩ := Finset.mem_filter.mp hq
            have := hrest q hq1
            exact ⟨this.1, by omega⟩)
      have hV2 : ValidPairing s (p.1 + 1) (j - 1) ((P.erase p).filter (fun q => ¬ q.2 < p.1)) :=
        hP.restrict (fun q hq => Finset.mem_of_mem_erase (Finset.mem_of_mem_filter q hq))
          (fun q hq => by
            obtain ⟨hq1, hq2⟩ := Finset.mem_filter.mp hq
            have := hrest q hq1
            exact ⟨by omega, by omega⟩)
      have b1 := ih i (p.1 - 1) (by omega) _ hV1
      have b2 := ih (p.1 + 1) (j - 1) (by omega) _ hV2
      have hsplit := Finset.filter_card_add_filter_neg_card_eq_card (s := P.erase p)
        (fun q => q.2 < p.1)
      have hcard : (P.erase p).card + 1 = P.card := Finset.card_erase_add_one hp
      have hge := R_ge_pair s i j p.1 hcand
      omega
    · have hV : ValidPairing s i (j - 1) P :=
        hP.restrict (Finset.Subset.refl P) (fun q hq => by
          obtain ⟨q1, q2, q3, -, -⟩ := hP.ok q hq
          have : q.2 ≠ j := fun h => hex ⟨q, hq, h⟩
          exact ⟨q1, by omega⟩)
      exact le_trans (ih i (j - 1) (by omega) P hV) (R_mono_right s i j)

theorem R_attained (s : List Char) :
    ∀ (w : Nat) (i j : Int), (j - i).toNat ≤ w →
      ∃ P, ValidPairing s i j P ∧ (P.card : Int) = R s i j := by
  intro w
  induction w with
  | zero =>
    intro i j hw
    refine ⟨∅, ⟨fun p hp => by simp at hp, fun p hp => by simp at hp,
      fun p hp => by simp at hp⟩, ?_⟩
    rw [R_base s i j (by unfold MIN_LOOP_LENGTH; omega)]; rfl
  | succ w ih =>
    intro i j hw
    by_cases heq : R s i j = R s i (j - 1)
    · obtain ⟨P, hP, hc⟩ := ih i (j - 1) (by omega)
      refine ⟨P, ⟨fun p hp => ?_, hP.apart, hP.nocross⟩, by rw [hc, heq]⟩
      obtain ⟨h1, h2, h3, h4, h5⟩ := hP.ok p hp
      exact ⟨h1, h2, by omega, h4, h5⟩
    · obtain ⟨hwd, t, htc, hFt⟩ := exists_best_candidate s i j heq
      obtain ⟨⟨ht1, ht2⟩, ht3⟩ := mem_candidates.mp htc
      have ht4 : t < j - 4 := ht2
      obtain ⟨P1, hP1, hc1⟩ := ih i (t - 1) (by omega)
      obtain ⟨P2, hP2, hc2⟩ := ih (t + 1) (j - 1) (by omega)
      have w1 : ∀ p ∈ P1, i ≤ p.1 ∧ p.1 < p.2 ∧ p.2 < t := by
        intro p hp
        obtain ⟨h1, h2, h3, -, -⟩ := hP1.ok p hp
        exact ⟨h1, h2, by omega⟩
      have w2 : ∀ p ∈ P2, t < p.1 ∧ p.1 < p.2 ∧ p.2 < j := by
        intro p hp
        obtain ⟨h1, h2, h3, -, -⟩ := hP2.ok p hp
        exact ⟨by omega, h2, by omega⟩
      have hdisj : Disjoint P1 P2 := by
        rw [Finset.disjoint_left]
        intro p hp1 hp2
        have := w1 p hp1
        have := w2 p hp2
        omega
      have hnot : (t, j) ∉ P1 ∪ P2 := by
        intro hmem
        rcases Finset.mem_union.mp hmem with h | h
        · have := w1 _ h; simp only at this; omega
        · have := w2 _ h; simp only at this; omega
      have hmem : ∀ p, p ∈ insert (t, j) (P1 ∪ P2) → p = (t, j) ∨ p ∈ P1 ∨ p ∈ P2 := by
        intro p hp
        rcases Finset.mem_insert.mp hp with h | h
        · exact Or.inl h
        · exact Or.inr (Finset.mem_union.mp h)
      refine ⟨insert (t, j) (P1 ∪ P2), ⟨?_, ?_, ?_⟩, ?_⟩
      · intro p hp
        rcases hmem p hp with rfl | h | h
        · exact ⟨ht1, by simp only; omega, le_rfl, by simp only; unfold MIN_LOOP_LENGTH; omega, ht3⟩
        · obtain ⟨h1, h2, h3, h4, h5⟩ := hP1.ok p h
          exact ⟨h1, h2, by omega, h4, h5⟩
        · obtain ⟨h1, h2, h3, h4, h5⟩ := hP2.ok p h
          exact ⟨by omega, h2, by omega, h4, h5⟩
      · intro p hp q hq hne hsh
        unfold SharesIndex at hsh
        rcases hmem p hp with rfl | h | h <;> rcases hmem q hq with rfl | h1 | h1
        · exact hne rfl
        · have := w1 q h1; simp only at hsh; omega
        · have := w2 q h1; simp only at hsh; omega
        · have := w1 p h; simp only at hsh; omega
        · exact hP1.apart p h q h1 hne hsh
        · have := w1 p h; have := w2 q h1; omega
        · have := w2 p h; simp only at hsh; omega
        · have := w2 p h; have := w1 q h1; omega
        · exact hP2.apart p h q h1 hne hsh
      · intro p hp q hq hcr
        unfold Crosses at hcr
        rcases hmem p hp with rfl | h | h <;> rcases hmem q hq with rfl | h1 | h1
        · simp only at hcr; omega
        · have := w1 q h1; simp only at hcr; omega
        · have := w2 q h1; simp only at hcr; omega
        · have := w1 p h; simp only at hcr; omega
        · exact hP1.nocross p h q h1 hcr
        · have := w1 p h; have := w2 q h1; omega
        · have := w2 p h; simp only at hcr; omega
        · have := w2 p h; have := w1 q h1; omega
        · exact hP2.nocross p h q h1 hcr
      · rw [Finset.card_insert_of_not_mem hnot, Finset.card_union_of_disjoint hdisj]
        push_cast
        rw [hc1, hc2, ← hFt]; ring

/-- The recurrence value is the largest size of a valid pairing over the window. -/
theorem R_isMax (s : List Char) (i j : Int) : IsMaxPairs s i j (R s i j) :=
  ⟨R_attained s (j - i).toNat i j le_rfl, fun P hP => R_upper s (j - i).toNat i j le_rfl P hP⟩

theorem Folded.count_open {s : List Char} {i : Int} {w : List Char} {P : List (Int × Int)}
    (h : Folded s i w P) : w.count '(' = P.length := by
  induction h with
  | nil i => rfl
  | dot _ ih => simp [List.count_append, ih]
  | pair _ _ _ _ ih1 ih2 =>
    simp [List.count_append, List.count_cons, ih1, ih2]
    omega

theorem Balanced.empty : Balanced [] := ⟨fun m => by simp, rfl⟩

theorem Balanced.append {a b : List Char} (ha : Balanced a) (hb : Balanced b) :
    Balanced (a ++ b) := by
  refine ⟨fun m => ?_, by rw [List.count_append, List.count_append, ha.2, hb.2]⟩
  rw [List.take_append_eq_append_take, List.count_append, List.count_append]
  exact Nat.add_le_add (ha.1 m) (hb.1 _)

theorem Balanced.single_dot : Balanced ['.'] := by
  refine ⟨fun m => ?_, by decide⟩
  cases m with
  | zero => simp
  | succ m => simp

theorem Balanced.wrap {w : List Char} (h : Balanced w) : Balanced ('(' :: (w ++ [')'])) := by
  refine ⟨fun m => ?_, ?_⟩
  · cases m with
    | zero => simp
    | succ m =>
      rw [List.take_succ_cons, List.take_append_eq_append_take]
      have h1 := h.1 m
      have h2 : (List.take (m - w.length) [')']).count ')' ≤ 1 :=
        le_trans (List.count_le_length _ _)
          (by rw [List.length_take]; exact Nat.min_le_right _ _)
      have h3 : (List.take (m - w.length) [')']).count '(' = 0 := by
        rw [List.count_eq_zero]
        intro hm
        have := List.mem_of_mem_take hm
        simp at this
      simp only [List.count_cons, List.count_append]
      simp
      omega
  · have := h.2
    simp [List.count_cons, List.count_append]
    omega

theorem Folded.balanced {s : List Char} {i : Int} {w : List Char} {P : List (Int × Int)}
    (h : Folded s i w P) : Balanced w := by
  induction h with
  | nil i => exact Balanced.empty
  | dot _ ih => exact ih.append Balanced.single_dot
  | pair _ _ _ _ ih1 ih2 => exact ih1.append ih2.wrap

/-- Every pair marked over a window lies inside it, spans more than
`MIN_LOOP_LENGTH` positions and joins complementary bases. -/
theorem Folded.pairs_ok {s : List Char} {i : Int} {w : List Char} {P : List (Int × Int)}
    (h : Folded s i w P) : ∀ p ∈ P, PairOK s i (i + w.length - 1) p := by
  induction h with
  | nil i => intro p hp; simp at hp
  | dot _ ih =>
    intro p hp
    obtain ⟨h1, h2, h3, h4, h5⟩ := ih p hp
    refine ⟨h1, h2, ?_, h4, h5⟩
    simp only [List.length_append, List.length_singleton]; push_cast; omega
  | @pair i w1 w2 P1 P2 _ _ hlen hcomp ih1 ih2 =>
    intro p hp
    have hlen4 : (4 : Int) ≤ w2.length := hlen
    simp only [List.length_append, List.length_cons, List.length_nil]
    push_cast
    rcases List.mem_cons.mp hp with rfl | hp
    · exact ⟨by simp only; omega, by simp only; omega, by simp only; omega,
        by simp only; unfold MIN_LOOP_LENGTH; omega, hcomp⟩
    · rcases List.mem_append.mp hp with hp | hp
      · obtain ⟨h1, h2, h3, h4, h5⟩ := ih1 p hp
        exact ⟨h1, h2, by omega, h4, h5⟩
      · obtain ⟨h1, h2, h3, h4, h5⟩ := ih2 p hp
        exact ⟨by omega, h2, by omega, h4, h5⟩

theorem Folded.separate {s : List Char} {i : Int} {w : List Char} {P : List (Int × Int)}
    (h : Folded s i w P) : P.Pairwise Separate := by
  induction h with
  | nil i => exact List.Pairwise.nil
  | dot _ ih => exact ih
  | @pair i w1 w2 P1 P2 f1 f2 hlen hcomp ih1 ih2 =>
    have k1 := f1.pairs_ok
    have k2 := f2.pairs_ok
    rw [List.pairwise_cons, List.pairwise_append]
    refine ⟨fun q hq => ?_, ih1, ih2, fun p hp q hq => ?_⟩
    · unfold Separate SharesIndex Crosses
      simp only
      rcases List.mem_append.mp hq with hq | hq
      · obtain ⟨h1, h2, h3, -, -⟩ := k1 q hq
        omega
      · obtain ⟨h1, h2, h3, -, -⟩ := k2 q hq
        omega
    · unfold Separate SharesIndex Crosses
      obtain ⟨h1, h2, h3, -, -⟩ := k1 p hp
      obtain ⟨g1, g2, g3, -, -⟩ := k2 q hq
      omega

theorem Folded.all_dots {s : List Char} {i : Int} {w : List Char} {P : List (Int × Int)}
    (h : Folded s i w P) (hP : P = []) : w = List.replicate w.length '.' := by
  induction h with
  | nil i => rfl
  | dot _ ih =>
    rw [List.length_append, List.length_singleton, List.replicate_succ', ← ih hP]
  | pair _ _ _ _ _ _ => simp at hP

theorem Folded.length_of_pair {s : List Char} {i : Int} {w : List Char} {P : List (Int × Int)}
    (h : Folded s i w P) : P = [] ∨ 6 ≤ w.length := by
  induction h with
  | nil i => exact Or.inl rfl
  | dot _ ih =>
    rcases ih with ih | ih
    · exact Or.inl ih
    · right; simp only [List.length_append, List.length_singleton]; omega
  | pair _ _ hlen _ _ _ =>
    right
    have hlen4 : (4 : Int) ≤ _ := hlen
    simp only [List.length_append, List.length_cons, List.length_nil]
    omega

theorem Folded.matchScan_eq {s : List Char} {i : Int} {w : List Char} {P : List (Int × Int)}
    (h : Folded s i w P) :
    ∀ (n0 : Nat) (rest : List Char) (stack : List Nat), (n0 : Int) = i →
      ∃ E : List (Nat × Nat), matchScan (w ++ rest) n0 stack =
          E ++ matchScan rest (n0 + w.length) stack ∧
        (E.map (fun e => ((e.1 : Int), (e.2 : Int)))).Perm P := by
  induction h with
  | nil i => intro n0 rest stack _; exact ⟨[], by simp, List.Perm.nil⟩
  | dot _ ih =>
    intro n0 rest stack hn
    obtain ⟨E, h1, h2⟩ := ih n0 ('.' :: rest) stack hn
    refine ⟨E, ?_, h2⟩
    rw [List.append_assoc, List.singleton_append, h1]
    simp [RnaFold.matchScan, Nat.add_assoc]
  | @pair i w1 w2 P1 P2 f1 f2 hlen hcomp ih1 ih2 =>
    intro n0 rest stack hn
    obtain ⟨E1, h1, h2⟩ := ih1 n0 ('(' :: (w2 ++ ')' :: rest)) stack hn
    obtain ⟨E2, h3, h4⟩ := ih2 (n0 + w1.length + 1) (')' :: rest) ((n0 + w1.length) :: stack)
      (by push_cast; omega)
    refine ⟨(E1 ++ E2) ++ [(n0 + w1.length, n0 + w1.length + 1 + w2.length)], ?_, ?_⟩
    · have e0 : w1 ++ '(' :: (w2 ++ [')']) ++ rest = w1 ++ '(' :: (w2 ++ ')' :: rest) := by
        simp [List.append_assoc]
      rw [e0, h1]
      simp only [RnaFold.matchScan, if_true]
      rw [h3]
      simp [RnaFold.matchScan, Nat.add_assoc, Nat.add_comm, Nat.add_left_comm]
    · rw [List.map_append, List.map_singleton, List.map_append]
      have hx : (((n0 + w1.length : Nat) : Int), ((n0 + w1.length + 1 + w2.length : Nat) : Int)) =
          (i + (w1.length : Int), i + (w1.length : Int) + 1 + (w2.length : Int)) := by
        rw [← hn]; push_cast; rfl
      rw [hx]
      exact (List.perm_append_singleton _ _).trans ((h2.append h4).cons _)

theorem getElem_opt_append_mid {α : Type} (l1 l2 : List α) (x : α) :
    (l1 ++ x :: l2)[l1.length]? = some x := by
  induction l1 with
  | nil => simp
  | cons y ys ih => simpa using ih

theorem getElem_opt_append_past {α : Type} (l1 l2 : List α) (x : α) (a : Nat) :
    (l1 ++ x :: l2)[l1.length + 1 + a]? = l2[a]? := by
  induction l1 with
  | nil => simp [Nat.add_comm]
  | cons y ys ih =>
    have e : (y :: ys).length + 1 + a = (ys.length + 1 + a) + 1 := by simp; omega
    rw [e, List.cons_append, List.getElem?_cons_succ, ih]

theorem getElem_opt_append_before {α : Type} (l1 l2 : List α) (a : Nat) (c : α)
    (h : l1[a]? = some c) : (l1 ++ l2)[a]? = some c := by
  induction l1 generalizing a with
  | nil => simp at h
  | cons y ys ih =>
    cases a with
    | zero => simpa using h
    | succ a =>
      rw [List.getElem?_cons_succ] at h
      rw [List.cons_append, List.getElem?_cons_succ]
      exact ih a h

/-- Every marked pair `(k, j)` is visible in the word: `(` at `k` and `)` at `j`. -/
theorem Folded.marks_written {s : List Char} {i : Int} {w : List Char} {P : List (Int × Int)}
    (h : Folded s i w P) :
    ∀ p ∈ P, ∃ a b : Nat, p = (i + (a : Int), i + (b : Int)) ∧
      w[a]? = some '(' ∧ w[b]? = some ')' := by
  induction h with
  | nil i => intro p hp; simp at hp
  | dot _ ih =>
    intro p hp
    obtain ⟨a, b, h1, h2, h3⟩ := ih p hp
    exact ⟨a, b, h1, getElem_opt_append_before _ _ a _ h2, getElem_opt_append_before _ _ b _ h3⟩
  | @pair i w1 w2 P1 P2 f1 f2 hlen hcomp ih1 ih2 =>
    intro p hp
    rcases List.mem_cons.mp hp with rfl | hp
    · refine ⟨w1.length, w1.length + 1 + w2.length, ?_, getElem_opt_append_mid _ _ _, ?_⟩
      · refine Prod.ext ?_ ?_
        simp only
        push_cast
        omega
      · rw [getElem_opt_append_past]; exact getElem_opt_append_mid _ _ _
    · rcases List.mem_append.mp hp with hp | hp
      · obtain ⟨a, b, h1, h2, h3⟩ := ih1 p hp
        exact ⟨a, b, h1, getElem_opt_append_before _ _ a _ h2, getElem_opt_append_before _ _ b _ h3⟩
      · obtain ⟨a, b, h1, h2, h3⟩ := ih2 p hp
        refine ⟨w1.length + 1 + a, w1.length + 1 + b, ?_, ?_, ?_⟩
        · rw [h1]; refine Prod.ext ?_ ?_ <;> simp only <;> push_cast <;> omega
        · rw [getElem_opt_append_past]; exact getElem_opt_append_before _ _ a _ h2
        · rw [getElem_opt_append_past]; exact getElem_opt_append_before _ _ b _ h3

theorem complementaryAt_nat {s : List Char} {a b : Nat}
    (h : complementaryAt s a b = true) :
    ∃ x y, s[a]? = some x ∧ s[b]? = some y ∧ isComplementary x y = true := by
  unfold complementaryAt seqAt at h
  simp only [Int.toNat_ofNat] at h
  have ha : ¬ ((a : Int) < 0) := by omega
  have hb : ¬ ((b : Int) < 0) := by omega
  rw [if_neg ha, if_neg hb] at h
  cases hx : s[a]? with
  | none => rw [hx] at h; simp at h
  | some x =>
    cases hy : s[b]? with
    | none => rw [hx, hy] at h; simp at h
    | some y =>
      rw [hx, hy] at h
      exact ⟨x, y, rfl, rfl, h⟩

/-- A word over a window of six positions is all dots or one pair around four dots. -/
theorem Folded.six {s : List Char} {i : Int} {w : List Char} {P : List (Int × Int)}
    (h : Folded s i w P) (hl : w.length = 6) :
    (P = [] ∧ w = List.replicate 6 '.') ∨
      (P.length = 1 ∧ w = ['(', '.', '.', '.', '.', ')']) := by
  cases h with
  | nil => simp at hl
  | @dot _ w1 _ f =>
    left
    simp only [List.length_append, List.length_singleton] at hl
    rcases f.length_of_pair with hP | hP
    · have := f.all_dots hP
      have h5 : w1.length = 5 := by omega
      rw [h5] at this
      exact ⟨hP, by rw [this]; rfl⟩
    · omega
  | @pair _ w1 w2 P1 P2 f1 f2 hlen hcomp =>
    right
    have hlen4 : (4 : Int) ≤ w2.length := hlen
    simp only [List.length_append, List.length_cons, List.length_nil] at hl
    have l1 : w1.length = 0 := by omega
    have l2 : w2.length = 4 := by omega
    have hP1 : P1 = [] := by
      rcases f1.length_of_pair with hP | hP
      · exact hP
      · omega
    have hP2 : P2 = [] := by
      rcases f2.length_of_pair with hP | hP
      · exact hP
      · omega
    have e1 : w1 = [] := List.length_eq_zero.mp l1
    have e2 := f2.all_dots hP2
    rw [l2] at e2
    subst hP1 hP2 e1
    refine ⟨rfl, ?_⟩
    rw [e2]; rfl

/-- C1: for every sequence `s` and every window `0 ≤ i ≤ j < n`, `initMatrix`
prepares a table on which `OPT(i, j)`, given any fuel above the window width,
returns the largest size of a set of pairs `(a, b)` with `i ≤ a < b ≤ j`,
`b - a > MIN_LOOP_LENGTH` and complementary bases, in which no index occurs twice
and no two pairs cross; and `nussinovAlgorithm` leaves that maximum for the whole
sequence at entry `(0, n-1)`.  (No restriction to the letters A, U, G, C is
needed.) -/
theorem OPT_returns_max_pairs (s : List Char) (i j : Int)
    (hi : 0 ≤ i) (hij : i ≤ j) (hj : j < s.length) :
    ∃ N0, initMatrix (Matrix.alloc s.length) s.length = .ok N0 ∧
      (∀ fuel : Nat, (j - i).toNat < fuel →
        ∃ v N1, OPT fuel i j s N0 = .ok (v, N1) ∧ IsMaxPairs s i j v) ∧
      ∃ N tr, nussinovAlgorithm s = .ok (N, tr) ∧
        IsMaxPairs s 0 ((s.length : Int) - 1) (N.cell 0 ((s.length : Int) - 1)) := by
  obtain ⟨N0, N, w, P, rs, hinit, hfresh, -, hrun, -, -, -, hcell, -⟩ :=
    nussinovAlgorithm_run s (by omega)
  refine ⟨N0, hinit, fun fuel hf => ?_, N, _, hrun, by rw [hcell]; exact R_isMax s _ _⟩
  obtain ⟨N1, h1, -⟩ := OPT_spec s fuel i j hi hj hf N0 hfresh.good
  exact ⟨R s i j, N1, h1, R_isMax s i j⟩

theorem OPT_returns_max_pairs_witness :
    ((0 : Int) ≤ 1 ∧ (1 : Int) ≤ 8 ∧ (8 : Int) < ['G', 'G', 'G', 'A', 'A', 'A', 'U', 'C', 'C'].length) ∧
    ∃ N0, initMatrix (Matrix.alloc ['G', 'G', 'G', 'A', 'A', 'A', 'U', 'C', 'C'].length)
        ['G', 'G', 'G', 'A', 'A', 'A', 'U', 'C', 'C'].length = .ok N0 ∧
      (∀ fuel : Nat, ((8 : Int) - 1).toNat < fuel →
        ∃ v N1, OPT fuel 1 8 ['G', 'G', 'G', 'A', 'A', 'A', 'U', 'C', 'C'] N0 = .ok (v, N1) ∧
          IsMaxPairs ['G', 'G', 'G', 'A', 'A', 'A', 'U', 'C', 'C'] 1 8 v) ∧
      ∃ N tr, nussinovAlgorithm ['G', 'G', 'G', 'A', 'A', 'A', 'U', 'C', 'C'] = .ok (N, tr) ∧
        IsMaxPairs ['G', 'G', 'G', 'A', 'A', 'A', 'U', 'C', 'C'] 0
          ((['G', 'G', 'G', 'A', 'A', 'A', 'U', 'C', 'C'].length : Int) - 1)
          (N.cell 0 ((['G', 'G', 'G', 'A', 'A', 'A', 'U', 'C', 'C'].length : Int) - 1)) :=
  ⟨by decide, OPT_returns_max_pairs ['G', 'G', 'G', 'A', 'A', 'A', 'U', 'C', 'C'] 1 8
    (by decide) (by decide) (by decide)⟩

/-- C2: for every sequence of length `n ≥ 1`, the number of `(` in the structure
returned by `nussinovAlgorithm` equals the score at entry `(0, n-1)` of the table,
and that number is the largest size of a valid pairing of the whole sequence. -/
theorem structure_attains_score (s : List Char) (hn : 1 ≤ s.length) :
    ∃ N tr, nussinovAlgorithm s = .ok (N, tr) ∧
      (tr.struct.count '(' : Int) = N.cell 0 ((s.length : Int) - 1) ∧
      IsMaxPairs s 0 ((s.length : Int) - 1) (tr.struct.count '(') := by
  obtain ⟨N0, N, w, P, rs, -, -, -, hrun, -, -, -, hcell, hf, -, hlen, -⟩ :=
    nussinovAlgorithm_run s hn
  have hc : ((w.count '(' : Nat) : Int) = R s 0 ((s.length : Int) - 1) := by
    rw [hf.count_open, hlen]
  exact ⟨N, _, hrun, by rw [hcell]; exact hc, by
    show IsMaxPairs s 0 _ ((w.count '(' : Nat) : Int)
    rw [hc]; exact R_isMax s _ _⟩

theorem structure_attains_score_witness :
    1 ≤ ['G', 'G', 'G', 'A', 'A', 'A', 'U', 'C', 'C'].length ∧
    ∃ N tr, nussinovAlgorithm ['G', 'G', 'G', 'A', 'A', 'A', 'U', 'C', 'C'] = .ok (N, tr) ∧
      (tr.struct.count '(' : Int) =
        N.cell 0 ((['G', 'G', 'G', 'A', 'A', 'A', 'U', 'C', 'C'].length : Int) - 1) ∧
      IsMaxPairs ['G', 'G', 'G', 'A', 'A', 'A', 'U', 'C', 'C'] 0
        ((['G', 'G', 'G', 'A', 'A', 'A', 'U', 'C', 'C'].length : Int) - 1)
        (tr.struct.count '(') :=
  ⟨by decide, structure_attains_score ['G', 'G', 'G', 'A', 'A', 'A', 'U', 'C', 'C'] (by decide)⟩

/-- C3: for every sequence `s` of length `n ≥ 1`, any two positions `a`, `b` that
are partners under bracket matching of the structure returned by
`nussinovAlgorithm` satisfy `a < b`, `b - a > MIN_LOOP_LENGTH`, and the bases
`s[a]`, `s[b]` are complementary.  Bracket matching leaves no `(` of the structure
without a partner. -/
theorem partners_respect_loop_and_bases (s : List Char) (hn : 1 ≤ s.length) :
    ∃ N tr, nussinovAlgorithm s = .ok (N, tr) ∧
      (∀ a b : Nat, (a, b) ∈ bracketPartners tr.struct →
        a < b ∧ (b : Int) - (a : Int) > MIN_LOOP_LENGTH ∧
        ∃ x y, s[a]? = some x ∧ s[b]? = some y ∧ isComplementary x y = true) ∧
      (bracketPartners tr.struct).length = tr.struct.count '(' := by
  obtain ⟨N0, N, w, P, rs, -, -, -, hrun, -, -, -, -, hf, -, -, -⟩ :=
    nussinovAlgorithm_run s hn
  obtain ⟨E, hE, hperm⟩ := hf.matchScan_eq 0 [] [] rfl
  have hEq : bracketPartners w = E := by
    unfold bracketPartners
    rw [List.append_nil] at hE
    rw [hE]
    simp [matchScan]
  refine ⟨N, _, hrun, fun a b hab => ?_, ?_⟩
  · have hab1 : (a, b) ∈ E := by rw [← hEq]; exact hab
    have hmem : ((a : Int), (b : Int)) ∈ P :=
      hperm.subset (List.mem_map.mpr ⟨(a, b), hab1, rfl⟩)
    obtain ⟨-, h2, -, h4, h5⟩ := hf.pairs_ok _ hmem
    simp only at h2 h4 h5
    exact ⟨by omega, h4, complementaryAt_nat h5⟩
  · show (bracketPartners w).length = w.count '('
    rw [hEq, hf.count_open, ← hperm.length_eq, List.length_map]

theorem partners_respect_loop_and_bases_witness :
    1 ≤ ['G', 'G', 'G', 'A', 'A', 'A', 'U', 'C', 'C'].length ∧
    ∃ N tr, nussinovAlgorithm ['G', 'G', 'G', 'A', 'A', 'A', 'U', 'C', 'C'] = .ok (N, tr) ∧
      (∀ a b : Nat, (a, b) ∈ bracketPartners tr.struct →
        a < b ∧ (b : Int) - (a : Int) > MIN_LOOP_LENGTH ∧
        ∃ x y, ['G', 'G', 'G', 'A', 'A', 'A', 'U', 'C', 'C'][a]? = some x ∧
          ['G', 'G', 'G', 'A', 'A', 'A', 'U', 'C', 'C'][b]? = some y ∧
          isComplementary x y = true) ∧
      (bracketPartners tr.struct).length = tr.struct.count '(' :=
  ⟨by decide,
    partners_respect_loop_and_bases ['G', 'G', 'G', 'A', 'A', 'A', 'U', 'C', 'C'] (by decide)⟩

/-- C4: for every sequence of length `n ≥ 1`, the structure returned by
`nussinovAlgorithm` is a balanced bracket string: every prefix has at least as
many `(` as `)`, and the whole string has as many `(` as `)`. -/
theorem structure_balanced (s : List Char) (hn : 1 ≤ s.length) :
    ∃ N tr, nussinovAlgorithm s = .ok (N, tr) ∧
      (∀ m : Nat, (tr.struct.take m).count ')' ≤ (tr.struct.take m).count '(') ∧
      tr.struct.count '(' = tr.struct.count ')' := by
  obtain ⟨N0, N, w, P, rs, -, -, -, hrun, -, -, -, -, hf, -, -, -⟩ :=
    nussinovAlgorithm_run s hn
  exact ⟨N, _, hrun, hf.balanced.1, hf.balanced.2⟩

theorem structure_balanced_witness :
    1 ≤ ['G', 'G', 'G', 'A', 'A', 'A', 'U', 'C', 'C'].length ∧
    ∃ N tr, nussinovAlgorithm ['G', 'G', 'G', 'A', 'A', 'A', 'U', 'C', 'C'] = .ok (N, tr) ∧
      (∀ m : Nat, (tr.struct.take m).count ')' ≤ (tr.struct.take m).count '(') ∧
      tr.struct.count '(' = tr.struct.count ')' :=
  ⟨by decide, structure_balanced ['G', 'G', 'G', 'A', 'A', 'A', 'U', 'C', 'C'] (by decide)⟩

/-- C5: for every sequence of length `n ≥ 1`, the pairs `(k, j)` that `traceback`
marks during `nussinovAlgorithm` each leave `(` at `k` and `)` at `j` with `k < j`;
no index belongs to two different marks; and two marked pairs `(i1, j1)`,
`(i2, j2)` with `i1 < i2` have `j2 < j1` or `j1 < i2`, never
`i1 < i2 < j1 < j2`. -/
theorem marks_disjoint_noncrossing (s : List Char) (hn : 1 ≤ s.length) :
    ∃ N tr, nussinovAlgorithm s = .ok (N, tr) ∧
      (∀ p ∈ tr.marks, ∃ k j : Nat, p = ((k : Int), (j : Int)) ∧ k < j ∧
        tr.struct[k]? = some '(' ∧ tr.struct[j]? = some ')') ∧
      tr.marks.Pairwise (fun p q => ¬ SharesIndex p q) ∧
      (∀ p ∈ tr.marks, ∀ q ∈ tr.marks, p.1 < q.1 → q.2 < p.2 ∨ p.2 < q.1) ∧
      (∀ p ∈ tr.marks, ∀ q ∈ tr.marks, ¬ Crosses p q) := by
  obtain ⟨N0, N, w, P, rs, -, -, -, hrun, -, -, -, -, hf, -, -, -⟩ :=
    nussinovAlgorithm_run s hn
  have hsep := hf.separate
  have hsym : Symmetric Separate := by
    intro p q h
    unfold Separate SharesIndex at *
    refine ⟨fun h1 => h.1 ?_, h.2.2, h.2.1⟩
    rcases h1 with h1 | h1 | h1 | h1
    · exact Or.inl h1.symm
    · exact Or.inr (Or.inr (Or.inl h1.symm))
    · exact Or.inr (Or.inl h1.symm)
    · exact Or.inr (Or.inr (Or.inr h1.symm))
  have hall := hsep.forall hsym
  have hok := hf.pairs_ok
  refine ⟨N, _, hrun, fun p hp => ?_, hsep.imp (fun h => h.1), fun p hp q hq hlt => ?_,
    fun p hp q hq hcr => ?_⟩
  · obtain ⟨a, b, h1, h2, h3⟩ := hf.marks_written p hp
    obtain ⟨-, o2, -, -, -⟩ := hok p hp
    rw [h1] at o2
    simp only at o2
    refine ⟨a, b, by rw [h1]; simp, by omega, h2, h3⟩
  · have hne : p ≠ q := by rintro rfl; omega
    obtain ⟨h1, h2, -⟩ := hall hp hq hne
    obtain ⟨-, p2, -, -, -⟩ := hok p hp
    obtain ⟨-, q2, -, -, -⟩ := hok q hq
    unfold SharesIndex at h1
    unfold Crosses at h2
    omega
  · have hne : p ≠ q := by rintro rfl; unfold Crosses at hcr; omega
    exact (hall hp hq hne).2.1 hcr

theorem marks_disjoint_noncrossing_witness :
    1 ≤ ['G', 'G', 'G', 'A', 'A', 'A', 'U', 'C', 'C'].length ∧
    ∃ N tr, nussinovAlgorithm ['G', 'G', 'G', 'A', 'A', 'A', 'U', 'C', 'C'] = .ok (N, tr) ∧
      (∀ p ∈ tr.marks, ∃ k j : Nat, p = ((k : Int), (j : Int)) ∧ k < j ∧
        tr.struct[k]? = some '(' ∧ tr.struct[j]? = some ')') ∧
      tr.marks.Pairwise (fun p q => ¬ SharesIndex p q) ∧
      (∀ p ∈ tr.marks, ∀ q ∈ tr.marks, p.1 < q.1 → q.2 < p.2 ∨ p.2 < q.1) ∧
      (∀ p ∈ tr.marks, ∀ q ∈ tr.marks, ¬ Crosses p q) :=
  ⟨by decide, marks_disjoint_noncrossing ['G', 'G', 'G', 'A', 'A', 'A', 'U', 'C', 'C'] (by decide)⟩

/-- C6: `isComplementary a b` holds exactly for the four pairs A-U, U-A, C-G,
G-C; hence it is symmetric, false on identical characters, and false as soon as one
of the characters is not among A, U, G, C. -/
theorem isComplementary_iff (a b : Char) :
    (isComplementary a b = true ↔
      (a = 'A' ∧ b = 'U') ∨ (a = 'U' ∧ b = 'A') ∨ (a = 'C' ∧ b = 'G') ∨ (a = 'G' ∧ b = 'C')) ∧
    isComplementary a b = isComplementary b a ∧
    isComplementary a a = false ∧
    (((a = 'A' ∨ a = 'U' ∨ a = 'G' ∨ a = 'C') ∧ (b = 'A' ∨ b = 'U' ∨ b = 'G' ∨ b = 'C')) ∨
      isComplementary a b = false) := by
  have key : ∀ x y : Char, isComplementary x y = true ↔
      (x = 'A' ∧ y = 'U') ∨ (x = 'U' ∧ y = 'A') ∨ (x = 'C' ∧ y = 'G') ∨ (x = 'G' ∧ y = 'C') := by
    intro x y
    unfold isComplementary
    simp only [Bool.or_eq_true, Bool.and_eq_true, beq_iff_eq, or_assoc]
  refine ⟨key a b, ?_, ?_, ?_⟩
  · rw [Bool.eq_iff_iff, key a b, key b a]
    constructor
    · rintro (⟨h1, h2⟩ | ⟨h1, h2⟩ | ⟨h1, h2⟩ | ⟨h1, h2⟩)
      · exact Or.inr (Or.inl ⟨h2, h1⟩)
      · exact Or.inl ⟨h2, h1⟩
      · exact Or.inr (Or.inr (Or.inr ⟨h2, h1⟩))
      · exact Or.inr (Or.inr (Or.inl ⟨h2, h1⟩))
    · rintro (⟨h1, h2⟩ | ⟨h1, h2⟩ | ⟨h1, h2⟩ | ⟨h1, h2⟩)
      · exact Or.inr (Or.inl ⟨h2, h1⟩)
      · exact Or.inl ⟨h2, h1⟩
      · exact Or.inr (Or.inr (Or.inr ⟨h2, h1⟩))
      · exact Or.inr (Or.inr (Or.inl ⟨h2, h1⟩))
  · rw [Bool.eq_false_iff]
    intro h
    rcases (key a a).mp h with ⟨h1, h2⟩ | ⟨h1, h2⟩ | ⟨h1, h2⟩ | ⟨h1, h2⟩ <;>
      · rw [h1] at h2; revert h2; decide
  · by_cases h : isComplementary a b = true
    · left
      rcases (key a b).mp h with ⟨h1, h2⟩ | ⟨h1, h2⟩ | ⟨h1, h2⟩ | ⟨h1, h2⟩ <;>
        · subst h1 h2; decide
    · right
      exact Bool.eq_false_iff.mpr h

/-- C7 (the code at the failing input): on the empty sequence `initMatrix` and
`OPT(0, -1)` succeed, and the store `nussinov[0][n-1] = ...` of line 112 then
addresses row `0`, column `-1` of a table with no rows: the run faults with an
out-of-range access instead of returning an empty structure. -/
theorem nussinovAlgorithm_empty_out_of_range :
    initMatrix (Matrix.alloc 0) 0 = .ok (Matrix.alloc 0) ∧
    OPT 1 0 (-1) [] (Matrix.alloc 0) = .ok (0, Matrix.alloc 0) ∧
    (Matrix.alloc 0).write 0 (-1) 0 = .error .outOfRange ∧
    nussinovAlgorithm [] = .error .outOfRange :=
  ⟨rfl, rfl, rfl, rfl⟩

/-- C8: for every sequence of length `n` with `1 ≤ n ≤ MIN_LOOP_LENGTH + 1`,
`nussinovAlgorithm` returns `n` dots and leaves `0` at entry `(0, n-1)`. -/
theorem short_sequence_unpaired (s : List Char) (hn : 1 ≤ s.length)
    (h5 : (s.length : Int) ≤ MIN_LOOP_LENGTH + 1) :
    ∃ N tr, nussinovAlgorithm s = .ok (N, tr) ∧
      tr.struct = List.replicate s.length '.' ∧ N.cell 0 ((s.length : Int) - 1) = 0 := by
  obtain ⟨N0, N, w, P, rs, -, -, -, hrun, -, -, -, hcell, hf, hw, hlen, -⟩ :=
    nussinovAlgorithm_run s hn
  have hR : R s 0 ((s.length : Int) - 1) = 0 := R_base s 0 _ (by omega)
  have hP : P = [] := by
    rw [hR] at hlen
    exact List.length_eq_zero.mp (by exact_mod_cast hlen)
  refine ⟨N, _, hrun, ?_, by rw [hcell, hR]⟩
  have := hf.all_dots hP
  rw [hw] at this
  exact this

theorem short_sequence_unpaired_witness :
    (1 ≤ ['A', 'U', 'G', 'C'].length ∧
      ((['A', 'U', 'G', 'C'].length : Nat) : Int) ≤ MIN_LOOP_LENGTH + 1) ∧
    ∃ N tr, nussinovAlgorithm ['A', 'U', 'G', 'C'] = .ok (N, tr) ∧
      tr.struct = List.replicate ['A', 'U', 'G', 'C'].length '.' ∧
      N.cell 0 (((['A', 'U', 'G', 'C'].length : Nat) : Int) - 1) = 0 :=
  ⟨by decide, short_sequence_unpaired ['A', 'U', 'G', 'C'] (by decide) (by decide)⟩

/-- C9: for every sequence `s` of length `n ≥ 1` in which no two positions
`a`, `b` with `b - a > MIN_LOOP_LENGTH` hold complementary bases,
`nussinovAlgorithm` returns `n` dots and leaves `0` at entry `(0, n-1)`. -/
theorem no_partner_unpaired (s : List Char) (hn : 1 ≤ s.length)
    (hno : ∀ a : Nat, a < s.length → ∀ b : Nat, b < s.length →
      MIN_LOOP_LENGTH < (b : Int) - (a : Int) → complementaryAt s a b = false) :
    ∃ N tr, nussinovAlgorithm s = .ok (N, tr) ∧
      tr.struct = List.replicate s.length '.' ∧ N.cell 0 ((s.length : Int) - 1) = 0 := by
  obtain ⟨N0, N, w, P, rs, -, -, -, hrun, -, -, -, hcell, hf, hw, hlen, -⟩ :=
    nussinovAlgorithm_run s hn
  have hP : P = [] := by
    cases P with
    | nil => rfl
    | cons p ps =>
      exfalso
      obtain ⟨h1, h2, h3, h4, h5⟩ := hf.pairs_ok p (List.mem_cons_self _ _)
      have := hno p.1.toNat (by omega) p.2.toNat (by omega) (by omega)
      rw [Int.toNat_of_nonneg (by omega), Int.toNat_of_nonneg (by omega), h5] at this
      exact Bool.noConfusion this
  have hR : R s 0 ((s.length : Int) - 1) = 0 := by rw [← hlen, hP]; rfl
  refine ⟨N, _, hrun, ?_, by rw [hcell, hR]⟩
  have := hf.all_dots hP
  rw [hw] at this
  exact this

theorem no_partner_unpaired_witness :
    (1 ≤ ['A', 'A', 'A', 'A', 'A', 'A', 'A'].length ∧
      ∀ a : Nat, a < ['A', 'A', 'A', 'A', 'A', 'A', 'A'].length →
        ∀ b : Nat, b < ['A', 'A', 'A', 'A', 'A', 'A', 'A'].length →
        MIN_LOOP_LENGTH < (b : Int) - (a : Int) →
        complementaryAt ['A', 'A', 'A', 'A', 'A', 'A', 'A'] a b = false) ∧
    ∃ N tr, nussinovAlgorithm ['A', 'A', 'A', 'A', 'A', 'A', 'A'] = .ok (N, tr) ∧
      tr.struct = List.replicate ['A', 'A', 'A', 'A', 'A', 'A', 'A'].length '.' ∧
      N.cell 0 (((['A', 'A', 'A', 'A', 'A', 'A', 'A'].length : Nat) : Int) - 1) = 0 :=
  ⟨⟨by decide, by decide⟩,
    no_partner_unpaired ['A', 'A', 'A', 'A', 'A', 'A', 'A'] (by decide) (by decide)⟩

/-- C10: for every sequence of exactly six characters: if the first and the last
are complementary, entry `(0, 5)` is `1` and `nussinovAlgorithm` returns `(....)`;
otherwise the entry is `0` and it returns `......`. -/
theorem six_bases (a b c d e f : Char) :
    ∃ N tr, nussinovAlgorithm [a, b, c, d, e, f] = .ok (N, tr) ∧
      N.cell 0 5 = (if isComplementary a f = true then 1 else 0) ∧
      tr.struct = (if isComplementary a f = true then ['(', '.', '.', '.', '.', ')']
        else ['.', '.', '.', '.', '.', '.']) := by
  obtain ⟨N0, N, w, P, rs, -, -, -, hrun, -, -, -, hcell, hf, hw, hlen, -⟩ :=
    nussinovAlgorithm_run [a, b, c, d, e, f] (by simp)
  have hn5 : (([a, b, c, d, e, f].length : Nat) : Int) - 1 = 5 := by simp
  rw [hn5] at hcell hlen
  have hc : complementaryAt [a, b, c, d, e, f] 0 5 = isComplementary a f :=
    complementaryAt_eq rfl rfl
  have hsix := hf.six hw
  refine ⟨N, _, hrun, ?_⟩
  by_cases hcomp : isComplementary a f = true
  · rw [if_pos hcomp, if_pos hcomp]
    have hge := R_ge_pair [a, b, c, d, e, f] 0 5 0
      (mem_candidates.mpr ⟨⟨le_rfl, by decide⟩, by rw [hc]; exact hcomp⟩)
    have hpos : 1 ≤ R [a, b, c, d, e, f] 0 5 :=
      le_trans (by
        have h1 := R_nonneg [a, b, c, d, e, f] 0 (0 - 1)
        have h2 := R_nonneg [a, b, c, d, e, f] (0 + 1) (5 - 1)
        omega) hge
    rcases hsix with ⟨hP, -⟩ | ⟨hP, hw6⟩
    · rw [hP] at hlen; simp at hlen; omega
    · rw [hP] at hlen
      exact ⟨by rw [hcell, ← hlen]; rfl, hw6⟩
  · rw [if_neg hcomp, if_neg hcomp]
    have hR : R [a, b, c, d, e, f] 0 5 = 0 := by
      by_contra hne
      have hne1 : R [a, b, c, d, e, f] 0 5 ≠ R [a, b, c, d, e, f] 0 (5 - 1) := by
        rw [R_base [a, b, c, d, e, f] 0 (5 - 1) (by decide)]; exact hne
      obtain ⟨-, t, ht, -⟩ := exists_best_candidate _ 0 5 hne1
      obtain ⟨⟨t1, t2⟩, t3⟩ := mem_candidates.mp ht
      have t4 : t < 5 - 4 := t2
      have : t = 0 := by omega
      rw [this, hc] at t3
      exact hcomp t3
    rcases hsix with ⟨hP, hw6⟩ | ⟨hP, -⟩
    · exact ⟨by rw [hcell, hR], by rw [hw6]; rfl⟩
    · rw [hP, hR] at hlen; simp at hlen

/-- Sanity check of the model on the sequences named by the specification. -/
theorem nussinovAlgorithm_examples :
    (∃ N tr, nussinovAlgorithm ['A', 'U', 'G', 'C'] = .ok (N, tr) ∧
      tr.struct = ['.', '.', '.', '.'] ∧ N.cell 0 3 = 0) ∧
    (∃ N tr, nussinovAlgorithm ['A', 'A', 'A', 'A', 'A', 'U'] = .ok (N, tr) ∧
      tr.struct = ['(', '.', '.', '.', '.', ')'] ∧ N.cell 0 5 = 1 ∧ tr.marks = [(0, 5)] ∧
      bracketPartners tr.struct = [(0, 5)]) ∧
    (∃ N tr, nussinovAlgorithm ['A', 'A', 'A', 'A', 'A', 'A', 'A'] = .ok (N, tr) ∧
      tr.struct = ['.', '.', '.', '.', '.', '.', '.'] ∧ N.cell 0 6 = 0) :=
  ⟨⟨_, _, rfl, by decide, by decide⟩, ⟨_, _, rfl, by decide, by decide, by decide, by decide⟩,
    ⟨_, _, rfl, by decide, by decide⟩⟩

/-- The run of `nussinovAlgorithm` on a non-empty sequence up to the call of
`traceback`: the table is good, its corner entry is done, and what remains is the
traceback over the whole sequence on a structure of dots. -/
theorem nussinovAlgorithm_unfold (s : List Char) (hn : 1 ≤ s.length) :
    ∃ (N0 N : Matrix),
      initMatrix (Matrix.alloc s.length) s.length = .ok N0 ∧ Fresh s.length N0 ∧
      OPT (s.length + 1) 0 ((s.length : Int) - 1) s N0 = .ok (R s 0 ((s.length : Int) - 1), N) ∧
      Good s N ∧ Extends N0 N ∧ Done N 0 ((s.length : Int) - 1) ∧
      nussinovAlgorithm s =
        (match traceback (s.length + 1) 0 ((s.length : Int) - 1) N
            ⟨List.replicate s.length '.', [], []⟩ s with
          | .error e => .error e
          | .ok tr => .ok (N, tr)) := by
  obtain ⟨N0, hinit, hfresh⟩ := initMatrix_fresh s.length
  obtain ⟨N, hopt, hg, hx, hd⟩ := OPT_spec s (s.length + 1) 0 ((s.length : Int) - 1) le_rfl
    (by omega) (by omega) N0 hfresh.good
  simp only at hopt
  have hcell := hg.cell_eq (le_refl 0) (by omega : (s.length : Int) - 1 < s.length) hd
  have hsz := hg.size_eq
  have hwr : N.write 0 ((s.length : Int) - 1) (R s 0 ((s.length : Int) - 1)) = .ok N := by
    rw [← hcell]
    exact Matrix.write_same N 0 _ le_rfl (by omega) (by omega) (by omega)
  refine ⟨N0, N, hinit, hfresh, hopt, hg, hx, hd, ?_⟩
  unfold nussinovAlgorithm
  simp only [hinit, hopt, hwr]

/-- Every symbol of a word written by `traceback` is a dot or a bracket. -/
theorem Folded.symbols {s : List Char} {i : Int} {w : List Char} {P : List (Int × Int)}
    (h : Folded s i w P) : ∀ c ∈ w, c = '.' ∨ c = '(' ∨ c = ')' := by
  induction h with
  | nil i => intro c hc; simp at hc
  | dot _ ih =>
    intro c hc
    rcases List.mem_append.mp hc with hc | hc
    · exact ih c hc
    · left; simpa using hc
  | pair _ _ _ _ ih1 ih2 =>
    intro c hc
    rcases List.mem_append.mp hc with hc | hc
    · exact ih1 c hc
    · rcases List.mem_cons.mp hc with hc | hc
      · right; left; exact hc
      · rcases List.mem_append.mp hc with hc | hc
        · exact ih2 c hc
        · right; right; simpa using hc

/-- C12: for every sequence of length `n ≥ 1`, the structure returned by
`nussinovAlgorithm` has exactly `n` symbols, each of them `.`, `(` or `)`. -/
theorem structure_length_and_symbols (s : List Char) (hn : 1 ≤ s.length) :
    ∃ N tr, nussinovAlgorithm s = .ok (N, tr) ∧ tr.struct.length = s.length ∧
      ∀ c ∈ tr.struct, c = '.' ∨ c = '(' ∨ c = ')' := by
  obtain ⟨N0, N, w, P, rs, -, -, -, hrun, -, -, -, -, hf, hw, -, -⟩ :=
    nussinovAlgorithm_run s hn
  exact ⟨N, _, hrun, hw, hf.symbols⟩

theorem structure_length_and_symbols_witness :
    1 ≤ ['G', 'G', 'G', 'A', 'A', 'A', 'U', 'C', 'C'].length ∧
    ∃ N tr, nussinovAlgorithm ['G', 'G', 'G', 'A', 'A', 'A', 'U', 'C', 'C'] = .ok (N, tr) ∧
      tr.struct.length = ['G', 'G', 'G', 'A', 'A', 'A', 'U', 'C', 'C'].length ∧
      ∀ c ∈ tr.struct, c = '.' ∨ c = '(' ∨ c = ')' :=
  ⟨by decide,
    structure_length_and_symbols ['G', 'G', 'G', 'A', 'A', 'A', 'U', 'C', 'C'] (by decide)⟩

/-- C15: for every sequence of length `n ≥ 1`, in the table `N` left by
`OPT(0, n-1)` on the table prepared by `initMatrix`: whenever an entry `N[i][j]`
of the table with `j - i > MIN_LOOP_LENGTH` is computed (is not `-1`), `N[i][j-1]`
is not `-1` either and `N[i][j-1] ≤ N[i][j]`. -/
theorem score_monotone_in_j (s : List Char) (hn : 1 ≤ s.length) :
    ∃ N0 v N, initMatrix (Matrix.alloc s.length) s.length = .ok N0 ∧
      OPT (s.length + 1) 0 ((s.length : Int) - 1) s N0 = .ok (v, N) ∧
      ∀ i j : Int, 0 ≤ i → j < s.length → MIN_LOOP_LENGTH < j - i → N.cell i j ≠ -1 →
        N.cell i (j - 1) ≠ -1 ∧ N.cell i (j - 1) ≤ N.cell i j := by
  obtain ⟨N0, N, hinit, -, hopt, hg, -, -, -⟩ := nussinovAlgorithm_unfold s hn
  refine ⟨N0, _, N, hinit, hopt, fun i j hi hj hw hne => ?_⟩
  have hd1 := (hg.closed i j hi hj hw hne).1
  have e1 := hg.cell_eq hi (by omega) hd1
  have e2 := hg.cell_eq hi hj (Or.inr hne)
  rw [e1, e2]
  exact ⟨by have := R_nonneg s i (j - 1); omega, R_mono_right s i j⟩

theorem score_monotone_in_j_witness :
    1 ≤ ['G', 'G', 'G', 'A', 'A', 'A', 'U', 'C', 'C'].length ∧
    ∃ N0 v N, initMatrix (Matrix.alloc ['G', 'G', 'G', 'A', 'A', 'A', 'U', 'C', 'C'].length)
        ['G', 'G', 'G', 'A', 'A', 'A', 'U', 'C', 'C'].length = .ok N0 ∧
      OPT (['G', 'G', 'G', 'A', 'A', 'A', 'U', 'C', 'C'].length + 1) 0
        ((['G', 'G', 'G', 'A', 'A', 'A', 'U', 'C', 'C'].length : Int) - 1)
        ['G', 'G', 'G', 'A', 'A', 'A', 'U', 'C', 'C'] N0 = .ok (v, N) ∧
      ∀ i j : Int, 0 ≤ i → j < ['G', 'G', 'G', 'A', 'A', 'A', 'U', 'C', 'C'].length →
        MIN_LOOP_LENGTH < j - i → N.cell i j ≠ -1 →
        N.cell i (j - 1) ≠ -1 ∧ N.cell i (j - 1) ≤ N.cell i j :=
  ⟨by decide, score_monotone_in_j ['G', 'G', 'G', 'A', 'A', 'A', 'U', 'C', 'C'] (by decide)⟩

/-- C17: for every sequence of length `n ≥ 1`, every read `N[a][b]` that
`traceback(0, n-1)` makes after the fill is inside the table, returns the value
stored there, which is not the sentinel `-1` and equals the recurrence score of
the window `(a, b)`; and the entry either lies in the region `b - a ≤
MIN_LOOP_LENGTH` that `initMatrix` leaves at `0` (below the diagonal included), or
was `-1` after `initMatrix` and has been computed by `OPT`. -/
theorem traceback_reads_computed (s : List Char) (hn : 1 ≤ s.length) :
    ∃ N0 N tr, initMatrix (Matrix.alloc s.length) s.length = .ok N0 ∧
      nussinovAlgorithm s = .ok (N, tr) ∧
      ∀ r ∈ tr.reads,
        (0 ≤ r.1 ∧ r.1 < s.length) ∧ (0 ≤ r.2.1 ∧ r.2.1 < s.length) ∧
        r.2.2 = N.cell r.1 r.2.1 ∧ r.2.2 ≠ -1 ∧ r.2.2 = R s r.1 r.2.1 ∧
        ((r.2.1 - r.1 ≤ MIN_LOOP_LENGTH ∧ N0.cell r.1 r.2.1 = 0 ∧ r.2.2 = 0) ∨
          (MIN_LOOP_LENGTH < r.2.1 - r.1 ∧ N0.cell r.1 r.2.1 = -1)) := by
  obtain ⟨N0, N, w, P, rs, hinit, hfresh, -, hrun, -, -, -, -, -, -, -, hrs⟩ :=
    nussinovAlgorithm_run s hn
  refine ⟨N0, N, _, hinit, hrun, fun r hr => ?_⟩
  obtain ⟨h1, h2, -, h4, h5⟩ := hrs r hr
  refine ⟨h1, h2, h4, by have := R_nonneg s r.1 r.2.1; omega, h5, ?_⟩
  by_cases hw : r.2.1 - r.1 ≤ MIN_LOOP_LENGTH
  · left
    refine ⟨hw, ?_, by rw [h5, R_base s _ _ hw]⟩
    rw [hfresh.2, if_neg]
    unfold MIN_LOOP_LENGTH at *
    omega
  · right
    refine ⟨not_le.mp hw, ?_⟩
    rw [hfresh.2, if_pos]
    unfold MIN_LOOP_LENGTH at *
    exact ⟨h1.1, by omega, h2.2⟩

theorem traceback_reads_computed_witness :
    1 ≤ ['G', 'G', 'G', 'A', 'A', 'A', 'U', 'C', 'C'].length ∧
    ∃ N0 N tr, initMatrix (Matrix.alloc ['G', 'G', 'G', 'A', 'A', 'A', 'U', 'C', 'C'].length)
        ['G', 'G', 'G', 'A', 'A', 'A', 'U', 'C', 'C'].length = .ok N0 ∧
      nussinovAlgorithm ['G', 'G', 'G', 'A', 'A', 'A', 'U', 'C', 'C'] = .ok (N, tr) ∧
      ∀ r ∈ tr.reads,
        (0 ≤ r.1 ∧ r.1 < ['G', 'G', 'G', 'A', 'A', 'A', 'U', 'C', 'C'].length) ∧
        (0 ≤ r.2.1 ∧ r.2.1 < ['G', 'G', 'G', 'A', 'A', 'A', 'U', 'C', 'C'].length) ∧
        r.2.2 = N.cell r.1 r.2.1 ∧ r.2.2 ≠ -1 ∧
        r.2.2 = R ['G', 'G', 'G', 'A', 'A', 'A', 'U', 'C', 'C'] r.1 r.2.1 ∧
        ((r.2.1 - r.1 ≤ MIN_LOOP_LENGTH ∧ N0.cell r.1 r.2.1 = 0 ∧ r.2.2 = 0) ∨
          (MIN_LOOP_LENGTH < r.2.1 - r.1 ∧ N0.cell r.1 r.2.1 = -1)) :=
  ⟨by decide, traceback_reads_computed ['G', 'G', 'G', 'A', 'A', 'A', 'U', 'C', 'C'] (by decide)⟩

/-- C18: for every sequence of length `n ≥ 1`, `initMatrix`, `OPT` started at
`(0, n-1)`, the store of its result at `(0, n-1)`, and `traceback` started at
`(0, n-1)` all run to completion in the bounds-checked model: no access to the
table, to the sequence or to the structure array leaves `[0, n)`.  In particular
every logged read and every marked pair is in range. -/
theorem accesses_in_range (s : List Char) (hn : 1 ≤ s.length) :
    ∃ N0 v N tr, initMatrix (Matrix.alloc s.length) s.length = .ok N0 ∧
      OPT (s.length + 1) 0 ((s.length : Int) - 1) s N0 = .ok (v, N) ∧
      N.write 0 ((s.length : Int) - 1) v = .ok N ∧
      traceback (s.length + 1) 0 ((s.length : Int) - 1) N
        ⟨List.replicate s.length '.', [], []⟩ s = .ok tr ∧
      nussinovAlgorithm s = .ok (N, tr) ∧
      (∀ r ∈ tr.reads, N.inRange r.1 r.2.1 = true) ∧
      (∀ p ∈ tr.marks, (0 ≤ p.1 ∧ p.1 < s.length) ∧ (0 ≤ p.2 ∧ p.2 < s.length)) := by
  obtain ⟨N0, N, hinit, -, hopt, hg, -, hd, hun⟩ := nussinovAlgorithm_unfold s hn
  have hsz := hg.size_eq
  have hcell := hg.cell_eq (le_refl 0) (by omega : (s.length : Int) - 1 < s.length) hd
  have hwr : N.write 0 ((s.length : Int) - 1) (R s 0 ((s.length : Int) - 1)) = .ok N := by
    rw [← hcell]
    exact Matrix.write_same N 0 _ le_rfl (by omega) (by omega) (by omega)
  have hd2 : Done N 0 (0 + (s.length : Int) - 1) := by rw [zero_add]; exact hd
  obtain ⟨w, P, rs, t1, f1, l1, -, r1⟩ := traceback_spec s N hg (s.length + 1) 0 s.length le_rfl
    (by omega) (by omega) hd2 [] [] [] [] rfl (by simp)
  simp only [zero_add, List.nil_append, List.append_nil] at t1
  refine ⟨N0, _, N, _, hinit, hopt, hwr, t1, by rw [hun, t1], fun r hr => ?_, fun p hp => ?_⟩
  · obtain ⟨h1, h2, -⟩ := r1 r hr
    simp [Matrix.inRange, hsz, h1.1, h1.2, h2.1, h2.2]
  · obtain ⟨o1, o2, o3, -, -⟩ := f1.pairs_ok p hp
    rw [l1] at o3
    exact ⟨⟨o1, by omega⟩, ⟨by omega, by omega⟩⟩

theorem accesses_in_range_witness :
    1 ≤ ['G', 'G', 'G', 'A', 'A', 'A', 'U', 'C', 'C'].length ∧
    ∃ N0 v N tr, initMatrix (Matrix.alloc ['G', 'G', 'G', 'A', 'A', 'A', 'U', 'C', 'C'].length)
        ['G', 'G', 'G', 'A', 'A', 'A', 'U', 'C', 'C'].length = .ok N0 ∧
      OPT (['G', 'G', 'G', 'A', 'A', 'A', 'U', 'C', 'C'].length + 1) 0
        ((['G', 'G', 'G', 'A', 'A', 'A', 'U', 'C', 'C'].length : Int) - 1)
        ['G', 'G', 'G', 'A', 'A', 'A', 'U', 'C', 'C'] N0 = .ok (v, N) ∧
      N.write 0 ((['G', 'G', 'G', 'A', 'A', 'A', 'U', 'C', 'C'].length : Int) - 1) v = .ok N ∧
      traceback (['G', 'G', 'G', 'A', 'A', 'A', 'U', 'C', 'C'].length + 1) 0
        ((['G', 'G', 'G', 'A', 'A', 'A', 'U', 'C', 'C'].length : Int) - 1) N
        ⟨List.replicate ['G', 'G', 'G', 'A', 'A', 'A', 'U', 'C', 'C'].length '.', [], []⟩
        ['G', 'G', 'G', 'A', 'A', 'A', 'U', 'C', 'C'] = .ok tr ∧
      nussinovAlgorithm ['G', 'G', 'G', 'A', 'A', 'A', 'U', 'C', 'C'] = .ok (N, tr) ∧
      (∀ r ∈ tr.reads, N.inRange r.1 r.2.1 = true) ∧
      (∀ p ∈ tr.marks, (0 ≤ p.1 ∧ p.1 < ['G', 'G', 'G', 'A', 'A', 'A', 'U', 'C', 'C'].length) ∧
        (0 ≤ p.2 ∧ p.2 < ['G', 'G', 'G', 'A', 'A', 'A', 'U', 'C', 'C'].length)) :=
  ⟨by decide, accesses_in_range ['G', 'G', 'G', 'A', 'A', 'A', 'U', 'C', 'C'] (by decide)⟩

/-- C20: on the sequence `AAAAAAA` the fill `OPT(0, 6)` of the table prepared by
`initMatrix` returns with entry `(1, 6)`, an entry of the table with
`6 - 1 > MIN_LOOP_LENGTH`, still at the sentinel `-1`, while entry `(0, 6)` has been
computed; the table `nussinovAlgorithm` leaves behind shows the same. -/
theorem fill_is_partial :
    ∃ N0 v N, initMatrix (Matrix.alloc 7) 7 = .ok N0 ∧
      OPT 8 0 6 ['A', 'A', 'A', 'A', 'A', 'A', 'A'] N0 = .ok (v, N) ∧
      N.inRange 1 6 = true ∧ MIN_LOOP_LENGTH < 6 - 1 ∧ N.cell 1 6 = -1 ∧ N.cell 0 6 = 0 ∧
      ∃ N1 tr, nussinovAlgorithm ['A', 'A', 'A', 'A', 'A', 'A', 'A'] = .ok (N1, tr) ∧
        N1.cell 1 6 = -1 :=
  ⟨_, _, _, rfl, rfl, by decide, by decide, by decide, by decide, _, _, rfl, by decide⟩

theorem Matrix.read_fault (N : Matrix) (i j : Int) (e : Fault) (h : N.read i j = .error e) :
    e = .outOfRange := by
  unfold Matrix.read at h
  split at h
  · exact Except.noConfusion h
  · injection h with h; exact h.symm

theorem Matrix.write_fault (N : Matrix) (i j v : Int) (e : Fault)
    (h : N.write i j v = .error e) : e = .outOfRange := by
  unfold Matrix.write at h
  split at h
  · exact Except.noConfusion h
  · injection h with h; exact h.symm

theorem seqAt_fault (s : List Char) (t : Int) (e : Fault) (h : seqAt s t = .error e) :
    e = .outOfRange := by
  unfold seqAt at h
  split at h
  · injection h with h; exact h.symm
  · split at h
    · exact Except.noConfusion h
    · injection h with h; exact h.symm

theorem Trace.get_fault (tr : Trace) (N : Matrix) (i j : Int) (e : Fault)
    (h : tr.get N i j = .error e) : e = .outOfRange := by
  unfold Trace.get at h
  split at h
  · rename_i e1 h1
    injection h with h
    rw [← h]; exact Matrix.read_fault N i j e1 h1
  · exact Except.noConfusion h

theorem Trace.put_fault (tr : Trace) (k : Int) (c : Char) (e : Fault)
    (h : tr.put k c = .error e) : e = .outOfRange := by
  unfold Trace.put at h
  split at h
  · exact Except.noConfusion h
  · injection h with h; exact h.symm

theorem forLoop_fault {σ : Type} (body : Int → σ → Except Fault σ) :
    ∀ (m : Nat) (lo : Int) (st : σ),
      (∀ t, lo ≤ t → t < lo + m → ∀ st1, body t st1 ≠ .error .outOfFuel) →
      forLoop body m lo st ≠ .error .outOfFuel := by
  intro m
  induction m with
  | zero => intro lo st _ h; exact Except.noConfusion h
  | succ m ih =>
    intro lo st hb
    unfold forLoop
    split
    · rename_i e he
      intro h
      injection h with h
      rw [h] at he
      exact hb lo le_rfl (by push_cast; omega) st he
    · exact ih (lo + 1) _ (fun t h1 h2 => hb t (by omega) (by push_cast; omega))

theorem pairStep_fault (call : Int → Int → Matrix → Except Fault (Int × Matrix))
    (i j : Int) (s : List Char) (t : Int) (st : Int × Matrix)
    (h1 : ∀ M, call i (t - 1) M ≠ .error .outOfFuel)
    (h2 : ∀ M, call (t + 1) (j - 1) M ≠ .error .outOfFuel) :
    pairStep call i j s t st ≠ .error .outOfFuel := by
  unfold pairStep
  split
  · rename_i e he
    intro h; injection h with h; rw [h] at he
    exact Fault.noConfusion (seqAt_fault s t _ he)
  · split
    · rename_i e he
      intro h; injection h with h; rw [h] at he
      exact Fault.noConfusion (seqAt_fault s j _ he)
    · split
      · split
        · rename_i e he
          intro h; injection h with h; rw [h] at he
          exact h1 _ he
        · split
          · rename_i e he
            intro h; injection h with h; rw [h] at he
            exact h2 _ he
          · simp only
            split <;> exact fun h => Except.noConfusion h
      · exact fun h => Except.noConfusion h

/-- With fuel above the window width `OPT` never stops for lack of fuel, on any
table and any window. -/
theorem OPT_fault (s : List Char) :
    ∀ (fuel : Nat) (i j : Int) (N : Matrix), (j - i).toNat < fuel →
      OPT fuel i j s N ≠ .error .outOfFuel := by
  intro fuel
  induction fuel with
  | zero => intro i j N h; omega
  | succ fuel ih =>
    intro i j N hf
    unfold OPT
    split
    · exact fun h => Except.noConfusion h
    · rename_i hw
      have hw4 : ¬ j - i ≤ 4 := hw
      split
      · rename_i e he
        intro h; injection h with h; rw [h] at he
        exact Fault.noConfusion (Matrix.read_fault N i j _ he)
      · split
        · exact fun h => Except.noConfusion h
        · split
          · rename_i e he
            intro h; injection h with h; rw [h] at he
            exact ih i (j - 1) N (by omega) he
          · split
            · rename_i e he
              intro h; injection h with h; rw [h] at he
              refine forLoop_fault _ _ _ _ (fun t ht1 ht2 st1 => ?_) he
              have ht3 : t < j - 4 := by
                have : (j - MIN_LOOP_LENGTH - i).toNat = (j - 4 - i).toNat := rfl
                omega
              exact pairStep_fault _ i j s t st1
                (fun M => ih i (t - 1) M (by omega))
                (fun M => ih (t + 1) (j - 1) M (by omega))
            · split
              · split
                · rename_i e he
                  intro h; injection h with h; rw [h] at he
                  exact Fault.noConfusion (Matrix.write_fault _ i j _ _ he)
                · exact fun h => Except.noConfusion h
              · split
                · rename_i e he
                  intro h; injection h with h; rw [h] at he
                  exact Fault.noConfusion (Matrix.write_fault _ i j _ _ he)
                · exact fun h => Except.noConfusion h

theorem scanPartner_fault (call : Int → Int → Trace → Except Fault Trace)
    (i j : Int) (N : Matrix) (s : List Char)
    (hc : ∀ (a b : Int) (t : Trace), b - a < j - i → call a b t ≠ .error .outOfFuel) :
    ∀ (m : Nat) (k : Int) (tr : Trace), i ≤ k → k + m ≤ j →
      scanPartner call i j N s m k tr ≠ .error .outOfFuel := by
  intro m
  induction m with
  | zero => intro k tr _ _ h; exact Except.noConfusion h
  | succ m ih =>
    intro k tr hik hkm
    push_cast at hkm
    unfold scanPartner
    split
    · rename_i e he
      intro h; injection h with h; rw [h] at he
      exact Fault.noConfusion (seqAt_fault s k _ he)
    · split
      · rename_i e he
        intro h; injection h with h; rw [h] at he
        exact Fault.noConfusion (seqAt_fault s j _ he)
      · split
        · split
          · rename_i e he
            intro h; injection h with h; rw [h] at he
            split at he
            · exact Fault.noConfusion (Trace.get_fault _ _ _ _ _ he)
            · exact Except.noConfusion he
          · split
            · rename_i e he
              intro h; injection h with h; rw [h] at he
              exact Fault.noConfusion (Trace.get_fault _ _ _ _ _ he)
            · split
              · rename_i e he
                intro h; injection h with h; rw [h] at he
                exact Fault.noConfusion (Trace.get_fault _ _ _ _ _ he)
              · split
                · split
                  · rename_i e he
                    intro h; injection h with h; rw [h] at he
                    exact Fault.noConfusion (Trace.put_fault _ _ _ _ he)
                  · split
                    · rename_i e he
                      intro h; injection h with h; rw [h] at he
                      exact Fault.noConfusion (Trace.put_fault _ _ _ _ he)
                    · split
                      · rename_i e he
                        intro h; injection h with h; rw [h] at he
                        exact hc i (k - 1) _ (by omega) he
                      · exact hc (k + 1) (j - 1) _ (by omega)
                · exact ih (k + 1) _ (by omega) (by omega)
        · exact ih (k + 1) _ (by omega) (by omega)

/-- With fuel above the window width `traceback` never stops for lack of fuel, on
any table, any window and any structure. -/
theorem traceback_fault (s : List Char) (N : Matrix) :
    ∀ (fuel : Nat) (i j : Int) (tr : Trace), (j - i).toNat < fuel →
      traceback fuel i j N tr s ≠ .error .outOfFuel := by
  intro fuel
  induction fuel with
  | zero => intro i j tr h; omega
  | succ fuel ih =>
    intro i j tr hf
    unfold traceback
    split
    · exact fun h => Except.noConfusion h
    · rename_i hji
      split
      · rename_i e he
        intro h; injection h with h; rw [h] at he
        exact Fault.noConfusion (Trace.get_fault _ _ _ _ _ he)
      · split
        · rename_i e he
          intro h; injection h with h; rw [h] at he
          exact Fault.noConfusion (Trace.get_fault _ _ _ _ _ he)
        · split
          · exact ih i (j - 1) _ (by omega)
          · exact scanPartner_fault _ i j N s
              (fun a b t hab => ih a b t (by omega)) _ i _ le_rfl (by omega)

theorem forLoop_congr {σ : Type} (b1 b2 : Int → σ → Except Fault σ) :
    ∀ (m : Nat) (lo : Int) (st : σ),
      (∀ t, lo ≤ t → t < lo + m → ∀ st1, b1 t st1 = b2 t st1) →
      forLoop b1 m lo st = forLoop b2 m lo st := by
  intro m
  induction m with
  | zero => intro lo st _; rfl
  | succ m ih =>
    intro lo st hb
    unfold forLoop
    rw [hb lo le_rfl (by push_cast; omega) st]
    split
    · rfl
    · exact ih (lo + 1) _ (fun t h1 h2 => hb t (by omega) (by push_cast; omega))

theorem pairStep_congr (c1 c2 : Int → Int → Matrix → Except Fault (Int × Matrix))
    (i j : Int) (s : List Char) (t : Int) (st : Int × Matrix)
    (h1 : ∀ M, c1 i (t - 1) M = c2 i (t - 1) M)
    (h2 : ∀ M, c1 (t + 1) (j - 1) M = c2 (t + 1) (j - 1) M) :
    pairStep c1 i j s t st = pairStep c2 i j s t st := by
  unfold pairStep
  simp only [h1, h2]

/-- Above the window width the amount of fuel does not change what `OPT` does. -/
theorem OPT_stable (s : List Char) :
    ∀ (f1 f2 : Nat) (i j : Int) (N : Matrix), (j - i).toNat < f1 → (j - i).toNat < f2 →
      OPT f1 i j s N = OPT f2 i j s N := by
  intro f1
  induction f1 with
  | zero => intro f2 i j N h; omega
  | succ f1 ih =>
    intro f2 i j N h1 h2
    cases f2 with
    | zero => omega
    | succ f2 =>
      by_cases hw : j - i ≤ MIN_LOOP_LENGTH
      · simp only [OPT, if_pos hw]
      · have hw4 : ¬ j - i ≤ 4 := hw
        have e1 : OPT f1 i (j - 1) s N = OPT f2 i (j - 1) s N :=
          ih f2 i (j - 1) N (by omega) (by omega)
        have e2 : ∀ st, forLoop (pairStep (fun a b M => OPT f1 a b s M) i j s)
              (j - MIN_LOOP_LENGTH - i).toNat i st =
            forLoop (pairStep (fun a b M => OPT f2 a b s M) i j s)
              (j - MIN_LOOP_LENGTH - i).toNat i st := by
          intro st
          apply forLoop_congr
          intro t ht1 ht2 st1
          have ht3 : t < j - 4 := by
            have : (j - MIN_LOOP_LENGTH - i).toNat = (j - 4 - i).toNat := rfl
            omega
          exact pairStep_congr _ _ i j s t st1
            (fun M => ih f2 i (t - 1) M (by omega) (by omega))
            (fun M => ih f2 (t + 1) (j - 1) M (by omega) (by omega))
        simp only [OPT, if_neg hw, e1, e2]

theorem scanPartner_congr (c1 c2 : Int → Int → Trace → Except Fault Trace)
    (i j : Int) (N : Matrix) (s : List Char)
    (hc : ∀ (a b : Int) (t : Trace), b - a < j - i → c1 a b t = c2 a b t) :
    ∀ (m : Nat) (k : Int) (tr : Trace), i ≤ k → k + m ≤ j →
      scanPartner c1 i j N s m k tr = scanPartner c2 i j N s m k tr := by
  intro m
  induction m with
  | zero => intro k tr _ _; rfl
  | succ m ih =>
    intro k tr hik hkm
    push_cast at hkm
    have h1 : ∀ t, c1 i (k - 1) t = c2 i (k - 1) t := fun t => hc i (k - 1) t (by omega)
    have h2 : ∀ t, c1 (k + 1) (j - 1) t = c2 (k + 1) (j - 1) t :=
      fun t => hc (k + 1) (j - 1) t (by omega)
    have h3 : ∀ t, scanPartner c1 i j N s m (k + 1) t = scanPartner c2 i j N s m (k + 1) t :=
      fun t => ih (k + 1) t (by omega) (by omega)
    simp only [scanPartner, h1, h2, h3]

/-- Above the window width the amount of fuel does not change what `traceback`
does. -/
theorem traceback_stable (s : List Char) (N : Matrix) :
    ∀ (f1 f2 : Nat) (i j : Int) (tr : Trace), (j - i).toNat < f1 → (j - i).toNat < f2 →
      traceback f1 i j N tr s = traceback f2 i j N tr s := by
  intro f1
  induction f1 with
  | zero => intro f2 i j tr h; omega
  | succ f1 ih =>
    intro f2 i j tr h1 h2
    cases f2 with
    | zero => omega
    | succ f2 =>
      by_cases hji : j ≤ i
      · simp only [traceback, if_pos hji]
      · have e1 : ∀ t, traceback f1 i (j - 1) N t s = traceback f2 i (j - 1) N t s :=
          fun t => ih f2 i (j - 1) t (by omega) (by omega)
        have e2 : ∀ t, scanPartner (fun a b t => traceback f1 a b N t s) i j N s
              (j - i).toNat i t =
            scanPartner (fun a b t => traceback f2 a b N t s) i j N s (j - i).toNat i t :=
          fun t => scanPartner_congr _ _ i j N s
            (fun a b t hab => ih f2 a b t (by omega) (by omega)) _ i t le_rfl (by omega)
        simp only [traceback, if_neg hji, e1, e2]

/-- C19: for every sequence, every table, every structure and all integers `i`
and `j`, `OPT(i, j)` and `traceback(i, j)` terminate: fuel one above the window
width `j - i` (taken as `0` when negative) is enough for the run to end otherwise
than by lack of fuel, and any further fuel leaves the outcome unchanged.  Each
recursive call is on a strictly narrower window: the loops of `OPT` and of
`traceback` over the window `(i, j)` depend on the function they call only through
its values on windows `(a, b)` with `b - a < j - i`. -/
theorem recursion_terminates (s : List Char) (N : Matrix) (tr : Trace) (i j : Int)
    (extra : Nat) :
    (OPT ((j - i).toNat + 1 + extra) i j s N = OPT ((j - i).toNat + 1) i j s N ∧
      OPT ((j - i).toNat + 1) i j s N ≠ .error .outOfFuel) ∧
    (traceback ((j - i).toNat + 1 + extra) i j N tr s =
        traceback ((j - i).toNat + 1) i j N tr s ∧
      traceback ((j - i).toNat + 1) i j N tr s ≠ .error .outOfFuel) ∧
    (∀ c1 c2 : Int → Int → Matrix → Except Fault (Int × Matrix),
      (∀ (a b : Int) (M : Matrix), b - a < j - i → c1 a b M = c2 a b M) →
      ∀ st, forLoop (pairStep c1 i j s) (j - MIN_LOOP_LENGTH - i).toNat i st =
        forLoop (pairStep c2 i j s) (j - MIN_LOOP_LENGTH - i).toNat i st) ∧
    (∀ c1 c2 : Int → Int → Trace → Except Fault Trace,
      (∀ (a b : Int) (t : Trace), b - a < j - i → c1 a b t = c2 a b t) →
      scanPartner c1 i j N s (j - i).toNat i tr = scanPartner c2 i j N s (j - i).toNat i tr) := by
  refine ⟨⟨OPT_stable s _ _ i j N (by omega) (by omega), OPT_fault s _ i j N (by omega)⟩,
    ⟨traceback_stable s N _ _ i j tr (by omega) (by omega),
      traceback_fault s N _ i j tr (by omega)⟩, fun c1 c2 hc st => ?_, fun c1 c2 hc => ?_⟩
  · apply forLoop_congr
    intro t ht1 ht2 st1
    have ht3 : t < j - 4 := by
      have : (j - MIN_LOOP_LENGTH - i).toNat = (j - 4 - i).toNat := rfl
      omega
    exact pairStep_congr _ _ i j s t st1 (fun M => hc i (t - 1) M (by omega))
      (fun M => hc (t + 1) (j - 1) M (by omega))
  · by_cases hji : i ≤ j
    · exact scanPartner_congr _ _ i j N s hc _ i tr le_rfl (by omega)
    · have h0 : (j - i).toNat = 0 := by omega
      rw [h0]
      rfl

theorem Memo.int {s : List Char} {N : Matrix} (h : Memo s N) (a b : Int)
    (ha : 0 ≤ a) (hb : b < s.length) (hab : MIN_LOOP_LENGTH < b - a) :
    N.cell a b = -1 ∨ N.cell a b = R s a b := by
  have hab4 : 4 < b - a := hab
  have := h.2 a.toNat (by omega) b.toNat (by omega)
    (by rw [Int.toNat_of_nonneg ha, Int.toNat_of_nonneg (by omega)]; exact hab)
  rwa [Int.toNat_of_nonneg ha, Int.toNat_of_nonneg (by omega)] at this

theorem FillsOnly.same (s : List Char) (N : Matrix) : FillsOnly s N N :=
  ⟨rfl, fun _ _ => Or.inl rfl⟩

theorem FillsOnly.chain {s : List Char} {N M K : Matrix} (h1 : FillsOnly s N M)
    (h2 : FillsOnly s M K) : FillsOnly s N K := by
  refine ⟨h2.1.trans h1.1, fun a b => ?_⟩
  rcases h2.2 a b with e2 | ⟨m1, k1, w1⟩
  · rcases h1.2 a b with e1 | ⟨n1, m2, w2⟩
    · left; rw [e2, e1]
    · right; exact ⟨n1, by rw [e2]; exact m2, w2⟩
  · rcases h1.2 a b with e1 | ⟨n1, m2, w2⟩
    · right; exact ⟨by rw [← e1]; exact m1, k1, w1⟩
    · right; exact ⟨n1, k1, w1⟩

theorem pairStep_memo (s : List Char) (call : Int → Int → Matrix → Except Fault (Int × Matrix))
    (N : Matrix) (i j t : Int) (st : Int × Matrix)
    (hi : 0 ≤ i) (hj : j < s.length) (hit : i ≤ t) (htj : t < j - MIN_LOOP_LENGTH)
    (hcall : ∀ a b : Int, 0 ≤ a → b < s.length → b - a < j - i → CallMemo s call a b)
    (hinv : Memo s st.2 ∧ FillsOnly s N st.2 ∧
      st.1 = maxOf ((candidatesUpTo s i j (t - i).toNat).map
        (fun u => 1 + R s i (u - 1) + R s (u + 1) (j - 1)))) :
    ∃ st1, pairStep call i j s t st = .ok st1 ∧
      (Memo s st1.2 ∧ FillsOnly s N st1.2 ∧
        st1.1 = maxOf ((candidatesUpTo s i j (t + 1 - i).toNat).map
          (fun u => 1 + R s i (u - 1) + R s (u + 1) (j - 1)))) := by
  obtain ⟨mp, M⟩ := st
  obtain ⟨hg, hext, hmp⟩ := hinv
  simp only at hg hext hmp
  unfold MIN_LOOP_LENGTH at htj
  obtain ⟨a, ha⟩ := seqAt_ok s t (by omega) (by omega)
  obtain ⟨b, hb⟩ := seqAt_ok s j (by omega) hj
  have hc := complementaryAt_eq ha hb
  have hsucc : (t + 1 - i).toNat = (t - i).toNat + 1 := by omega
  have hti : i + (((t - i).toNat : Nat) : Int) = t := by omega
  have hcand := candidatesUpTo_succ s i j (t - i).toNat
  rw [hti] at hcand
  unfold pairStep
  simp only [ha, hb]
  by_cases hcomp : isComplementary a b = true
  · rw [if_pos hcomp]
    rw [hc, if_pos hcomp] at hcand
    obtain ⟨M1, e1, hg1, hx1⟩ := hcall i (t - 1) hi (by omega) (by omega) M hg
    obtain ⟨M2, e2, hg2, hx2⟩ := hcall (t + 1) (j - 1) (by omega) (by omega) (by omega) M1 hg1
    simp only [e1, e2]
    have key : ∀ v : Int, v = max mp (1 + R s i (t - 1) + R s (t + 1) (j - 1)) →
        (Memo s M2 ∧ FillsOnly s N M2 ∧
          v = maxOf ((candidatesUpTo s i j (t + 1 - i).toNat).map
            (fun u => 1 + R s i (u - 1) + R s (u + 1) (j - 1)))) := by
      intro v hv
      refine ⟨hg2, hext.chain (hx1.chain hx2), ?_⟩
      rw [hsucc, hcand, List.map_append, List.map_singleton, maxOf_append_singleton, ← hmp, hv]
    by_cases hgt : 1 + R s i (t - 1) + R s (t + 1) (j - 1) > mp
    · rw [if_pos hgt]
      exact ⟨_, rfl, key _ (by rw [max_eq_right (le_of_lt hgt)])⟩
    · rw [if_neg hgt]
      exact ⟨_, rfl, key _ (by rw [max_eq_left (not_lt.mp hgt)])⟩
  · rw [if_neg hcomp]
    rw [hc, if_neg hcomp, List.append_nil] at hcand
    refine ⟨_, rfl, hg, hext, ?_⟩
    simp only; rw [hsucc, hcand]; exact hmp

/-- On any table satisfying `Memo`, `OPT(i, j)` returns `R(i, j)`, keeps `Memo` and
overwrites sentinel entries only. -/
theorem OPT_memo (s : List Char) :
    ∀ (fuel : Nat) (i j : Int), 0 ≤ i → j < s.length → (j - i).toNat < fuel →
      CallMemo s (fun a b M => OPT fuel a b s M) i j := by
  intro fuel
  induction fuel with
  | zero => intro i j _ _ h; omega
  | succ fuel ih =>
    intro i j hi hj hf N hg
    show ∃ M1, OPT (fuel + 1) i j s N = .ok (R s i j, M1) ∧ _
    unfold OPT
    by_cases hw : j - i ≤ MIN_LOOP_LENGTH
    · rw [if_pos hw, R_base s i j hw]
      exact ⟨N, rfl, hg, FillsOnly.same s N⟩
    · rw [if_neg hw]
      have hw1 : MIN_LOOP_LENGTH < j - i := not_le.mp hw
      have hw2 : 4 < j - i := hw1
      have hsz := hg.1
      rw [Matrix.read_ok N i j hi (by omega) (by omega) (by omega)]
      simp only
      by_cases hv : N.cell i j ≠ -1
      · rw [if_pos hv]
        refine ⟨N, ?_, hg, FillsOnly.same s N⟩
        rcases hg.int i j hi hj hw1 with h | h
        · exact absurd h hv
        · rw [h]
      · rw [if_neg hv]
        have hv1 : N.cell i j = -1 := not_not.mp hv
        obtain ⟨N1, e1, hg1, hx1⟩ := ih i (j - 1) hi (by omega) (by omega) N hg
        simp only at e1
        rw [e1]
        simp only
        have hloop := forLoop_inv (pairStep (fun a b M => OPT fuel a b s M) i j s)
          (fun t st => Memo s st.2 ∧ FillsOnly s N1 st.2 ∧
            st.1 = maxOf ((candidatesUpTo s i j (t - i).toNat).map
              (fun u => 1 + R s i (u - 1) + R s (u + 1) (j - 1))))
          (j - MIN_LOOP_LENGTH - i).toNat i (0, N1)
          ⟨hg1, FillsOnly.same s N1, by simp [candidatesUpTo, maxOf]⟩
          (fun t st ht1 ht2 hinv =>
            pairStep_memo s (fun a b M => OPT fuel a b s M) N1 i j t st
              hi hj ht1 (by unfold MIN_LOOP_LENGTH at *; omega)
              (fun a b ha hb hab => ih a b ha hb (by omega)) hinv)
        obtain ⟨⟨mp, N2⟩, hl, hg2, hx2, hmp⟩ := hloop
        simp only at hg2 hx2 hmp
        rw [hl]
        simp only
        have hm : (i + ((j - MIN_LOOP_LENGTH - i).toNat : Int) - i).toNat =
            (j - MIN_LOOP_LENGTH - i).toNat := by omega
        rw [hm] at hmp
        have hRs := R_step s i j hw
        change R s i j = max (R s i (j - 1)) (maxOf ((candidatesUpTo s i j
          (j - MIN_LOOP_LENGTH - i).toNat).map _)) at hRs
        rw [← hmp] at hRs
        have hsz2 := hg2.1
        have hN2 := hx1.chain hx2
        have hwr : ∀ v : Int, v = R s i j → ∃ M1,
            (match N2.write i j v with
              | .error e => (.error e : Except Fault (Int × Matrix))
              | .ok N3 => .ok (v, N3)) = .ok (R s i j, M1) ∧
            Memo s M1 ∧ FillsOnly s N M1 := by
          intro v hv
          rw [Matrix.write_ok N2 i j v hi (by omega) (by omega) (by omega), hv]
          refine ⟨_, rfl, ⟨hsz2, fun a ha b hb hab => ?_⟩, hN2.1, fun a b => ?_⟩
          · show (if (a : Int) = i ∧ (b : Int) = j then R s i j else N2.cell a b) = -1 ∨
              (if (a : Int) = i ∧ (b : Int) = j then R s i j else N2.cell a b) = R s a b
            by_cases h : (a : Int) = i ∧ (b : Int) = j
            · rw [if_pos h, h.1, h.2]; exact Or.inr rfl
            · rw [if_neg h]; exact hg2.2 a ha b hb hab
          · show (if a = i ∧ b = j then R s i j else N2.cell a b) = N.cell a b ∨
              (N.cell a b = -1 ∧ (if a = i ∧ b = j then R s i j else N2.cell a b) = R s a b ∧
                MIN_LOOP_LENGTH < b - a)
            by_cases h : a = i ∧ b = j
            · rw [if_pos h, h.1, h.2]; exact Or.inr ⟨hv1, rfl, hw1⟩
            · rw [if_neg h]; exact hN2.2 a b
        by_cases hgt : R s i (j - 1) > mp
        · rw [if_pos hgt]
          exact hwr _ (by rw [hRs, max_eq_left (le_of_lt hgt)])
        · rw [if_neg hgt]
          exact hwr _ (by rw [hRs, max_eq_right (not_lt.mp hgt)])

/-- C13: let `R` be the Nussinov recurrence (`R(i, j) = 0` if `j - i ≤
MIN_LOOP_LENGTH`, otherwise the maximum of `R(i, j-1)` and of
`1 + R(i, t-1) + R(t+1, j-1)` over the `t` in `[i, j - MIN_LOOP_LENGTH - 1]` with
complementary bases at `t` and `j`, no such `t` contributing `0`).  On any table in
which every entry `(a, b)` with `b - a > MIN_LOOP_LENGTH` is `-1` or holds
`R(a, b)`, and for all `0 ≤ i, j < n`, `OPT(i, j)` (given fuel above the window
width) returns `R(i, j)` and leaves a table with the same property that differs
from the old one only where the old entry was `-1`. -/
theorem OPT_refines_recurrence (s : List Char) (N : Matrix) (i j : Int) (fuel : Nat)
    (hM : Memo s N) (hi : 0 ≤ i ∧ i < s.length) (hj : 0 ≤ j ∧ j < s.length)
    (hf : (j - i).toNat < fuel) :
    (R s i j = if j - i ≤ MIN_LOOP_LENGTH then 0
      else max (R s i (j - 1)) (maxOf ((candidates s i j).map
        (fun t => 1 + R s i (t - 1) + R s (t + 1) (j - 1))))) ∧
    ∃ N1, OPT fuel i j s N = .ok (R s i j, N1) ∧ Memo s N1 ∧ FillsOnly s N N1 := by
  refine ⟨?_, OPT_memo s fuel i j hi.1 hj.2 hf N hM⟩
  by_cases hw : j - i ≤ MIN_LOOP_LENGTH
  · rw [if_pos hw, R_base s i j hw]
  · rw [if_neg hw, R_step s i j hw]

theorem OPT_refines_recurrence_witness :
    (Memo ['A', 'A', 'A', 'A', 'A', 'U', 'U']
        ⟨7, fun a b => if a = 0 ∧ b = 5 then 1 else if 4 < b - a then -1 else 0⟩ ∧
      ((0 : Int) ≤ 0 ∧ (0 : Int) < ['A', 'A', 'A', 'A', 'A', 'U', 'U'].length) ∧
      ((0 : Int) ≤ 6 ∧ (6 : Int) < ['A', 'A', 'A', 'A', 'A', 'U', 'U'].length) ∧
      ((6 : Int) - 0).toNat < 7) ∧
    ((R ['A', 'A', 'A', 'A', 'A', 'U', 'U'] 0 6 = if (6 : Int) - 0 ≤ MIN_LOOP_LENGTH then 0
      else max (R ['A', 'A', 'A', 'A', 'A', 'U', 'U'] 0 (6 - 1))
        (maxOf ((candidates ['A', 'A', 'A', 'A', 'A', 'U', 'U'] 0 6).map
          (fun t => 1 + R ['A', 'A', 'A', 'A', 'A', 'U', 'U'] 0 (t - 1) +
            R ['A', 'A', 'A', 'A', 'A', 'U', 'U'] (t + 1) (6 - 1))))) ∧
    ∃ N1, OPT 7 0 6 ['A', 'A', 'A', 'A', 'A', 'U', 'U']
        ⟨7, fun a b => if a = 0 ∧ b = 5 then 1 else if 4 < b - a then -1 else 0⟩ =
          .ok (R ['A', 'A', 'A', 'A', 'A', 'U', 'U'] 0 6, N1) ∧
      Memo ['A', 'A', 'A', 'A', 'A', 'U', 'U'] N1 ∧
      FillsOnly ['A', 'A', 'A', 'A', 'A', 'U', 'U']
        ⟨7, fun a b => if a = 0 ∧ b = 5 then 1 else if 4 < b - a then -1 else 0⟩ N1) :=
  ⟨⟨⟨rfl, by decide⟩, by decide, by decide, by decide⟩,
    OPT_refines_recurrence ['A', 'A', 'A', 'A', 'A', 'U', 'U']
      ⟨7, fun a b => if a = 0 ∧ b = 5 then 1 else if 4 < b - a then -1 else 0⟩ 0 6 7
      ⟨rfl, by decide⟩ (by decide) (by decide) (by decide)⟩

theorem Separate.symm {p q : Int × Int} (h : Separate p q) : Separate q p := by
  unfold Separate SharesIndex at *
  refine ⟨fun h1 => h.1 ?_, h.2.2, h.2.1⟩
  rcases h1 with h1 | h1 | h1 | h1
  · exact Or.inl h1.symm
  · exact Or.inr (Or.inr (Or.inl h1.symm))
  · exact Or.inr (Or.inl h1.symm)
  · exact Or.inr (Or.inr (Or.inr h1.symm))

/-- The pairs marked over a window are a valid pairing of it, so they are at most
as many as the recurrence value of the window. -/
theorem Folded.le_R {s : List Char} {i : Int} {w : List Char} {P : List (Int × Int)}
    (h : Folded s i w P) : (P.length : Int) ≤ R s i (i + w.length - 1) := by
  have hsep := h.separate
  have hall := hsep.forall (fun _ _ hpq => Separate.symm hpq)
  have hnd : P.Nodup := by
    apply hsep.imp
    intro p q hpq hne
    apply hpq.1
    rw [hne]
    exact Or.inl rfl
  have hV : ValidPairing s i (i + w.length - 1) P.toFinset := by
    refine ⟨fun p hp => h.pairs_ok p (List.mem_toFinset.mp hp), fun p hp q hq hne => ?_,
      fun p hp q hq hcr => ?_⟩
    · exact (hall (List.mem_toFinset.mp hp) (List.mem_toFinset.mp hq) hne).1
    · have hne : p ≠ q := by rintro rfl; unfold Crosses at hcr; omega
      exact (hall (List.mem_toFinset.mp hp) (List.mem_toFinset.mp hq) hne).2.1 hcr
  have := R_upper s _ i (i + w.length - 1) le_rfl P.toFinset hV
  rwa [List.toFinset_card_of_nodup hnd] at this

/-- On a good table the two readings of the partner condition agree. -/
theorem PartnerCond_iff_ScanCond {s : List Char} {N : Matrix} (hg : Good s N) (i j t : Int)
    (hi : 0 ≤ i) (hit : i ≤ t) : PartnerCond s N i j t ↔ ScanCond s N i j t := by
  unfold PartnerCond ScanCond
  have e : (if t - 1 < i then 0 else N.cell i (t - 1)) =
      (if t - 1 ≥ 0 then N.cell i (t - 1) else 0) := by
    by_cases h1 : t - 1 < i
    · rw [if_pos h1]
      by_cases h2 : t - 1 ≥ 0
      · rw [if_pos h2, hg.base i (t - 1) (by unfold MIN_LOOP_LENGTH; omega)]
      · rw [if_neg h2]
    · rw [if_neg h1, if_pos (by omega)]
  rw [e]

/-- On a good table, for a candidate `k` of a computed window, the test of the
loop of `traceback` says that pairing `k` with `j` attains the recurrence value. -/
theorem ScanCond_iff {s : List Char} {N : Matrix} (hg : Good s N) (i j k : Int)
    (hi : 0 ≤ i) (hj : j < s.length) (hne : N.cell i j ≠ -1)
    (hik : i ≤ k) (hkj : k < j - MIN_LOOP_LENGTH) :
    ScanCond s N i j k ↔
      (k ∈ candidates s i j ∧ 1 + R s i (k - 1) + R s (k + 1) (j - 1) = R s i j) := by
  have hkj4 : k < j - 4 := hkj
  have hw : MIN_LOOP_LENGTH < j - i := by unfold MIN_LOOP_LENGTH; omega
  have hij := hg.cell_eq hi hj (Or.inr hne)
  unfold ScanCond
  constructor
  · rintro ⟨hc, heq⟩
    have hkc : k ∈ candidates s i j := mem_candidates.mpr ⟨⟨hik, hkj⟩, hc⟩
    obtain ⟨dl, dr⟩ := (hg.closed i j hi hj hw hne).2 k hkc
    refine ⟨hkc, ?_⟩
    rw [hij, hg.cell_eq (by omega) (by omega) dr] at heq
    by_cases h1 : k - 1 ≥ 0
    · rw [if_pos h1, hg.cell_eq hi (by omega) dl] at heq
      exact heq.symm
    · rw [if_neg h1] at heq
      rw [R_base s i (k - 1) (by unfold MIN_LOOP_LENGTH; omega)]
      exact heq.symm
  · rintro ⟨hkc, heq⟩
    obtain ⟨dl, dr⟩ := (hg.closed i j hi hj hw hne).2 k hkc
    refine ⟨(mem_candidates.mp hkc).2, ?_⟩
    rw [hij, hg.cell_eq (by omega) (by omega) dr, ← heq]
    by_cases h1 : k - 1 ≥ 0
    · rw [if_pos h1, hg.cell_eq hi (by omega) dl]
    · rw [if_neg h1, R_base s i (k - 1) (by unfold MIN_LOOP_LENGTH; omega)]

/-- When the recurrence value of a window exceeds that of the window without its
right end, there is a first candidate whose pairing attains it. -/
theorem exists_first_candidate (s : List Char) (i j : Int)
    (hne : R s i j ≠ R s i (j - 1)) :
    ∃ k, (k ∈ candidates s i j ∧ 1 + R s i (k - 1) + R s (k + 1) (j - 1) = R s i j) ∧
      ∀ t, i ≤ t → t < k →
        ¬ (t ∈ candidates s i j ∧ 1 + R s i (t - 1) + R s (t + 1) (j - 1) = R s i j) := by
  classical
  obtain ⟨-, t, htc, hFt⟩ := exists_best_candidate s i j hne
  have hit := (mem_candidates.mp htc).1.1
  have hex : ∃ d : Nat, (i + (d : Int)) ∈ candidates s i j ∧
      1 + R s i (i + (d : Int) - 1) + R s (i + (d : Int) + 1) (j - 1) = R s i j := by
    refine ⟨(t - i).toNat, ?_⟩
    have e : i + (((t - i).toNat : Nat) : Int) = t := by omega
    rw [e]; exact ⟨htc, hFt⟩
  refine ⟨i + ((Nat.find hex : Nat) : Int), Nat.find_spec hex, fun u hu1 hu2 hu => ?_⟩
  have e : i + (((u - i).toNat : Nat) : Int) = u := by omega
  apply Nat.find_min hex (m := (u - i).toNat) (by omega)
  rw [e]; exact hu

/-- The loop of `traceback` over a computed window of a good table runs up to the
first candidate whose pairing attains the recurrence value, marks it, and goes on
with the two recursive calls. -/
theorem scanPartner_at_first (s : List Char) (N : Matrix) (hg : Good s N)
    (call : Int → Int → Trace → Except Fault Trace) (i j : Int)
    (hi : 0 ≤ i) (hj : j < s.length) (hne : N.cell i j ≠ -1) (k1 : Int)
    (hk1 : k1 ∈ candidates s i j ∧ 1 + R s i (k1 - 1) + R s (k1 + 1) (j - 1) = R s i j)
    (hmin : ∀ t, i ≤ t → t < k1 →
      ¬ (t ∈ candidates s i j ∧ 1 + R s i (t - 1) + R s (t + 1) (j - 1) = R s i j))
    (st : List Char) (mk : List (Int × Int)) (hlen : st.length = s.length) :
    ∀ (m : Nat) (k : Int) (rd : List (Int × Int × Int)), i ≤ k → k ≤ k1 →
      (j - k).toNat ≤ m →
      ∃ rs, (∀ r ∈ rs, ReadOK s N r) ∧
        scanPartner call i j N s m k ⟨st, mk, rd⟩ =
          (match call i (k1 - 1)
              ⟨(st.set k1.toNat '(').set j.toNat ')', mk ++ [(k1, j)], rd ++ rs⟩ with
            | .error e => .error e
            | .ok tr6 => call (k1 + 1) (j - 1) tr6) := by
  have hk14 : k1 < j - 4 := (mem_candidates.mp hk1.1).1.2
  have hw : MIN_LOOP_LENGTH < j - i := by
    have := (mem_candidates.mp hk1.1).1.1
    unfold MIN_LOOP_LENGTH; omega
  intro m
  induction m with
  | zero => intro k rd _ hk hm; omega
  | succ m ih =>
    intro k rd hik hkk1 hm
    obtain ⟨a, ha⟩ := seqAt_ok s k (by omega) (by omega)
    obtain ⟨b, hb⟩ := seqAt_ok s j (by omega) hj
    have hc := complementaryAt_eq ha hb
    unfold scanPartner
    simp only [ha, hb]
    by_cases hcomp : isComplementary a b = true
    · rw [if_pos hcomp]
      have hkc : k ∈ candidates s i j :=
        mem_candidates.mpr ⟨⟨hik, by unfold MIN_LOOP_LENGTH; omega⟩, by rw [hc]; exact hcomp⟩
      obtain ⟨-, c2⟩ := hg.closed i j hi hj hw hne
      obtain ⟨dl, dr⟩ := c2 k hkc
      have hscore : ∃ rs0, (if k - 1 ≥ 0 then Trace.get ⟨st, mk, rd⟩ N i (k - 1)
          else .ok (0, ⟨st, mk, rd⟩)) = .ok (R s i (k - 1), ⟨st, mk, rd ++ rs0⟩) ∧
          ∀ r ∈ rs0, ReadOK s N r := by
        by_cases hk1 : k - 1 ≥ 0
        · rw [if_pos hk1]
          obtain ⟨g1, g2⟩ := Trace.get_ok hg ⟨st, mk, rd⟩ i (k - 1) hi (by omega) hk1
            (by omega) dl
          exact ⟨[(i, k - 1, R s i (k - 1))], g1, fun r hr => by
            rw [List.mem_singleton] at hr; rw [hr]; exact g2⟩
        · rw [if_neg hk1]
          refine ⟨[], ?_, fun r hr => by simp at hr⟩
          rw [R_base s i (k - 1) (by unfold MIN_LOOP_LENGTH; omega), List.append_nil]
      obtain ⟨rs0, hs0, hr0⟩ := hscore
      rw [hs0]
      simp only
      obtain ⟨g1, g1r⟩ := Trace.get_ok hg ⟨st, mk, rd ++ rs0⟩ i j hi (by omega) (by omega) hj
        (Or.inr hne)
      rw [g1]
      simp only
      obtain ⟨g2, g2r⟩ := Trace.get_ok hg ⟨st, mk, rd ++ rs0 ++ [(i, j, R s i j)]⟩ (k + 1) (j - 1)
        (by omega) (by omega) (by omega) (by omega) dr
      rw [g2]
      simp only
      have hrall : ∀ r ∈ rs0 ++ [(i, j, R s i j)] ++ [(k + 1, j - 1, R s (k + 1) (j - 1))],
          ReadOK s N r := by
        intro r hr
        simp only [List.mem_append, List.mem_singleton] at hr
        rcases hr with (hr | hr) | hr
        · exact hr0 r hr
        · rw [hr]; exact g1r
        · rw [hr]; exact g2r
      by_cases heq : R s i j = 1 + R s i (k - 1) + R s (k + 1) (j - 1)
      · rw [if_pos heq]
        have hkeq : k = k1 := by
          by_contra hne1
          exact hmin k hik (by omega) ⟨hkc, heq.symm⟩
        subst hkeq
        rw [Trace.put_ok _ _ _ k '(' (by omega) (by rw [hlen]; omega)]
        simp only
        rw [Trace.put_ok _ _ _ j ')' (by omega) (by rw [List.length_set, hlen]; exact hj)]
        simp only [Trace.noteMark]
        refine ⟨rs0 ++ [(i, j, R s i j)] ++ [(k + 1, j - 1, R s (k + 1) (j - 1))], hrall, ?_⟩
        simp only [List.append_assoc]
      · rw [if_neg heq]
        have hkne : k ≠ k1 := by
          rintro rfl
          exact heq hk1.2.symm
        obtain ⟨rs, h1, h2⟩ := ih (k + 1)
          (rd ++ rs0 ++ [(i, j, R s i j)] ++ [(k + 1, j - 1, R s (k + 1) (j - 1))])
          (by omega) (by omega) (by omega)
        refine ⟨rs0 ++ [(i, j, R s i j)] ++ [(k + 1, j - 1, R s (k + 1) (j - 1))] ++ rs,
          fun r hr => ?_, ?_⟩
        · rcases List.mem_append.mp hr with hr | hr
          · exact hrall r hr
          · exact h1 r hr
        · rw [h2]
          simp only [List.append_assoc]
    · rw [if_neg hcomp]
      have hkne : k ≠ k1 := by
        rintro rfl
        have := (mem_candidates.mp hk1.1).2
        rw [hc] at this
        exact hcomp this
      exact ih (k + 1) rd (by omega) (by omega) (by omega)

/-- One step of `traceback` on a computed window of a good table whose value
differs from that of the window without its right end. -/
theorem traceback_at_first (s : List Char) (N : Matrix) (hg : Good s N) (i j : Int)
    (hi : 0 ≤ i) (hj : j < s.length) (hne : N.cell i j ≠ -1)
    (hdiff : N.cell i j ≠ N.cell i (j - 1)) (k1 : Int)
    (hk1 : k1 ∈ candidates s i j ∧ 1 + R s i (k1 - 1) + R s (k1 + 1) (j - 1) = R s i j)
    (hmin : ∀ t, i ≤ t → t < k1 →
      ¬ (t ∈ candidates s i j ∧ 1 + R s i (t - 1) + R s (t + 1) (j - 1) = R s i j))
    (fuel : Nat) (st : List Char) (mk : List (Int × Int)) (rd : List (Int × Int × Int))
    (hlen : st.length = s.length) :
    ∃ rs, (∀ r ∈ rs, ReadOK s N r) ∧
      traceback (fuel + 1) i j N ⟨st, mk, rd⟩ s =
        (match traceback fuel i (k1 - 1) N
            ⟨(st.set k1.toNat '(').set j.toNat ')', mk ++ [(k1, j)], rd ++ rs⟩ s with
          | .error e => .error e
          | .ok tr6 => traceback fuel (k1 + 1) (j - 1) N tr6 s) := by
  have hk14 : k1 < j - 4 := (mem_candidates.mp hk1.1).1.2
  have hik1 := (mem_candidates.mp hk1.1).1.1
  have hw : MIN_LOOP_LENGTH < j - i := by unfold MIN_LOOP_LENGTH; omega
  have hd1 : Done N i (j - 1) := (hg.closed i j hi hj hw hne).1
  rw [traceback, if_neg (by omega)]
  obtain ⟨g1, g1r⟩ := Trace.get_ok hg ⟨st, mk, rd⟩ i j hi (by omega) (by omega) hj (Or.inr hne)
  rw [g1]
  simp only
  obtain ⟨g2, g2r⟩ := Trace.get_ok hg ⟨st, mk, rd ++ [(i, j, R s i j)]⟩ i (j - 1) hi (by omega)
    (by omega) (by omega) hd1
  rw [g2]
  simp only
  have hdiffR : R s i j ≠ R s i (j - 1) := by
    rw [← hg.cell_eq hi hj (Or.inr hne), ← hg.cell_eq hi (by omega) hd1]; exact hdiff
  rw [if_neg hdiffR]
  obtain ⟨rs, h1, h2⟩ := scanPartner_at_first s N hg (fun a b t => traceback fuel a b N t s)
    i j hi hj hne k1 hk1 hmin st mk hlen (j - i).toNat i
    (rd ++ [(i, j, R s i j)] ++ [(i, j - 1, R s i (j - 1))]) le_rfl hik1 le_rfl
  refine ⟨[(i, j, R s i j)] ++ [(i, j - 1, R s i (j - 1))] ++ rs, fun r hr => ?_, ?_⟩
  · simp only [List.mem_append, List.mem_singleton] at hr
    rcases hr with (hr | hr) | hr
    · rw [hr]; exact g1r
    · rw [hr]; exact g2r
    · exact h1 r hr
  · rw [h2]
    simp only [List.append_assoc]

/-- C11: for every sequence of length `n ≥ 1`, on the table `N` built by `OPT`:
every entry `traceback` reads is computed, and for every window `(i, j)` of the
table whose entry is computed (so every window `traceback` visits) with
`N[i][j] ≠ N[i][j-1]`, there is an index `k ≥ i` that satisfies the partner
condition (complementary to `j`, and `N[i][j] = 1 + score(i, k-1) +
score(k+1, j-1)` with `score(i, k-1)` taken as `0` when `k - 1 < i`), no smaller
index of the window satisfies it, and `traceback(i, j)` writes `(` at `k` and `)`
at `j`, records the pair `(k, j)` and goes on with `traceback(i, k-1)` and
`traceback(k+1, j-1)`. -/
theorem traceback_marks_smallest_partner (s : List Char) (hn : 1 ≤ s.length) :
    ∃ N tr, nussinovAlgorithm s = .ok (N, tr) ∧
      (∀ r ∈ tr.reads, N.cell r.1 r.2.1 ≠ -1) ∧
      ∀ i j : Int, 0 ≤ i → j < s.length → N.cell i j ≠ -1 → N.cell i j ≠ N.cell i (j - 1) →
        ∃ k, i ≤ k ∧ k < j ∧ PartnerCond s N i j k ∧
          (∀ t, i ≤ t → t < k → ¬ PartnerCond s N i j t) ∧
          ∀ (fuel : Nat) (st : List Char) (mk : List (Int × Int))
            (rd : List (Int × Int × Int)), st.length = s.length →
            ∃ rs, traceback (fuel + 1) i j N ⟨st, mk, rd⟩ s =
              (match traceback fuel i (k - 1) N
                  ⟨(st.set k.toNat '(').set j.toNat ')', mk ++ [(k, j)], rd ++ rs⟩ s with
                | .error e => .error e
                | .ok tr6 => traceback fuel (k + 1) (j - 1) N tr6 s) := by
  obtain ⟨N0, N, w, P, rs, -, -, -, hrun, hg, -, -, -, -, -, -, hrs⟩ :=
    nussinovAlgorithm_run s hn
  refine ⟨N, _, hrun, fun r hr => ?_, fun i j hi hj hne hdiff => ?_⟩
  · obtain ⟨-, -, -, h4, h5⟩ := hrs r hr
    rw [← h4, h5]
    have := R_nonneg s r.1 r.2.1
    omega
  · have hw : MIN_LOOP_LENGTH < j - i := by
      by_contra hw
      apply hdiff
      rw [hg.base i j (not_lt.mp hw), hg.base i (j - 1) (by have := not_lt.mp hw; omega)]
    have hd1 : Done N i (j - 1) := (hg.closed i j hi hj hw hne).1
    have hdiffR : R s i j ≠ R s i (j - 1) := by
      rw [← hg.cell_eq hi hj (Or.inr hne), ← hg.cell_eq hi (by omega) hd1]; exact hdiff
    obtain ⟨k, hk, hmin⟩ := exists_first_candidate s i j hdiffR
    have hkr := (mem_candidates.mp hk.1).1
    have hk4 : k < j - 4 := hkr.2
    refine ⟨k, hkr.1, by omega, ?_, fun t ht1 ht2 hP => ?_, fun fuel st mk rd hlen => ?_⟩
    · rw [PartnerCond_iff_ScanCond hg i j k hi hkr.1, ScanCond_iff hg i j k hi hj hne hkr.1 hkr.2]
      exact hk
    · rw [PartnerCond_iff_ScanCond hg i j t hi ht1,
        ScanCond_iff hg i j t hi hj hne ht1 (by unfold MIN_LOOP_LENGTH; omega)] at hP
      exact hmin t ht1 ht2 hP
    · obtain ⟨rs1, -, h2⟩ := traceback_at_first s N hg i j hi hj hne hdiff k hk hmin fuel st mk
        rd hlen
      exact ⟨rs1, h2⟩

theorem traceback_marks_smallest_partner_witness :
    1 ≤ ['G', 'G', 'G', 'A', 'A', 'A', 'U', 'C', 'C'].length ∧
    ∃ N tr, nussinovAlgorithm ['G', 'G', 'G', 'A', 'A', 'A', 'U', 'C', 'C'] = .ok (N, tr) ∧
      (∀ r ∈ tr.reads, N.cell r.1 r.2.1 ≠ -1) ∧
      ∀ i j : Int, 0 ≤ i → j < ['G', 'G', 'G', 'A', 'A', 'A', 'U', 'C', 'C'].length →
        N.cell i j ≠ -1 → N.cell i j ≠ N.cell i (j - 1) →
        ∃ k, i ≤ k ∧ k < j ∧ PartnerCond ['G', 'G', 'G', 'A', 'A', 'A', 'U', 'C', 'C'] N i j k ∧
          (∀ t, i ≤ t → t < k →
            ¬ PartnerCond ['G', 'G', 'G', 'A', 'A', 'A', 'U', 'C', 'C'] N i j t) ∧
          ∀ (fuel : Nat) (st : List Char) (mk : List (Int × Int))
            (rd : List (Int × Int × Int)),
            st.length = ['G', 'G', 'G', 'A', 'A', 'A', 'U', 'C', 'C'].length →
            ∃ rs, traceback (fuel + 1) i j N ⟨st, mk, rd⟩
                ['G', 'G', 'G', 'A', 'A', 'A', 'U', 'C', 'C'] =
              (match traceback fuel i (k - 1) N
                  ⟨(st.set k.toNat '(').set j.toNat ')', mk ++ [(k, j)], rd ++ rs⟩
                  ['G', 'G', 'G', 'A', 'A', 'A', 'U', 'C', 'C'] with
                | .error e => .error e
                | .ok tr6 => traceback fuel (k + 1) (j - 1) N tr6
                    ['G', 'G', 'G', 'A', 'A', 'A', 'U', 'C', 'C']) :=
  ⟨by decide,
    traceback_marks_smallest_partner ['G', 'G', 'G', 'A', 'A', 'A', 'U', 'C', 'C'] (by decide)⟩

/-- C16: for every sequence of length `n ≥ 1`, on the table `N` built by `OPT`,
for every window `(i, j)` of the table whose entry is computed (so every window
`traceback` reaches) with `N[i][j] ≠ N[i][j-1]`: the scan over `k = i .. j-1`
finds an index `k` with complementary bases at `k` and `j` and
`N[i][j] == 1 + score + N[k+1][j-1]`; the first such `k` satisfies
`k < j - MIN_LOOP_LENGTH`; and the loop leaves through the marking branch at that
`k`, never by running to completion. -/
theorem scan_finds_partner (s : List Char) (hn : 1 ≤ s.length) :
    ∃ N tr, nussinovAlgorithm s = .ok (N, tr) ∧
      ∀ i j : Int, 0 ≤ i → j < s.length → N.cell i j ≠ -1 → N.cell i j ≠ N.cell i (j - 1) →
        ∃ k, i ≤ k ∧ k < j - MIN_LOOP_LENGTH ∧ ScanCond s N i j k ∧
          (∀ t, i ≤ t → t < k → ¬ ScanCond s N i j t) ∧
          ∀ (call : Int → Int → Trace → Except Fault Trace) (st : List Char)
            (mk : List (Int × Int)) (rd : List (Int × Int × Int)), st.length = s.length →
            ∃ rs, scanPartner call i j N s (j - i).toNat i ⟨st, mk, rd⟩ =
              (match call i (k - 1)
                  ⟨(st.set k.toNat '(').set j.toNat ')', mk ++ [(k, j)], rd ++ rs⟩ with
                | .error e => .error e
                | .ok tr6 => call (k + 1) (j - 1) tr6) := by
  obtain ⟨N0, N, w, P, rs, -, -, -, hrun, hg, -, -, -, -, -, -, -⟩ :=
    nussinovAlgorithm_run s hn
  refine ⟨N, _, hrun, fun i j hi hj hne hdiff => ?_⟩
  have hw : MIN_LOOP_LENGTH < j - i := by
    by_contra hw
    apply hdiff
    rw [hg.base i j (not_lt.mp hw), hg.base i (j - 1) (by have := not_lt.mp hw; omega)]
  have hd1 : Done N i (j - 1) := (hg.closed i j hi hj hw hne).1
  have hdiffR : R s i j ≠ R s i (j - 1) := by
    rw [← hg.cell_eq hi hj (Or.inr hne), ← hg.cell_eq hi (by omega) hd1]; exact hdiff
  obtain ⟨k, hk, hmin⟩ := exists_first_candidate s i j hdiffR
  have hkr := (mem_candidates.mp hk.1).1
  have hk4 : k < j - 4 := hkr.2
  refine ⟨k, hkr.1, hkr.2, ?_, fun t ht1 ht2 hP => ?_, fun call st mk rd hlen => ?_⟩
  · rw [ScanCond_iff hg i j k hi hj hne hkr.1 hkr.2]
    exact hk
  · rw [ScanCond_iff hg i j t hi hj hne ht1 (by unfold MIN_LOOP_LENGTH; omega)] at hP
    exact hmin t ht1 ht2 hP
  · obtain ⟨rs1, -, h2⟩ := scanPartner_at_first s N hg call i j hi hj hne k hk hmin st mk hlen
      (j - i).toNat i rd le_rfl hkr.1 le_rfl
    exact ⟨rs1, h2⟩

theorem scan_finds_partner_witness :
    1 ≤ ['G', 'G', 'G', 'A', 'A', 'A', 'U', 'C', 'C'].length ∧
    ∃ N tr, nussinovAlgorithm ['G', 'G', 'G', 'A', 'A', 'A', 'U', 'C', 'C'] = .ok (N, tr) ∧
      ∀ i j : Int, 0 ≤ i → j < ['G', 'G', 'G', 'A', 'A', 'A', 'U', 'C', 'C'].length →
        N.cell i j ≠ -1 → N.cell i j ≠ N.cell i (j - 1) →
        ∃ k, i ≤ k ∧ k < j - MIN_LOOP_LENGTH ∧
          ScanCond ['G', 'G', 'G', 'A', 'A', 'A', 'U', 'C', 'C'] N i j k ∧
          (∀ t, i ≤ t → t < k → ¬ ScanCond ['G', 'G', 'G', 'A', 'A', 'A', 'U', 'C', 'C'] N i j t) ∧
          ∀ (call : Int → Int → Trace → Except Fault Trace) (st : List Char)
            (mk : List (Int × Int)) (rd : List (Int × Int × Int)),
            st.length = ['G', 'G', 'G', 'A', 'A', 'A', 'U', 'C', 'C'].length →
            ∃ rs, scanPartner call i j N ['G', 'G', 'G', 'A', 'A', 'A', 'U', 'C', 'C']
                (j - i).toNat i ⟨st, mk, rd⟩ =
              (match call i (k - 1)
                  ⟨(st.set k.toNat '(').set j.toNat ')', mk ++ [(k, j)], rd ++ rs⟩ with
                | .error e => .error e
                | .ok tr6 => call (k + 1) (j - 1) tr6) :=
  ⟨by decide, scan_finds_partner ['G', 'G', 'G', 'A', 'A', 'A', 'U', 'C', 'C'] (by decide)⟩

/-- C14: for every sequence of length `n ≥ 2`, the last symbol of the structure
returned by `nussinovAlgorithm` is `.` if entry `(0, n-1)` of the table equals
entry `(0, n-2)`, and `)` otherwise. -/
theorem last_symbol (s : List Char) (hn : 2 ≤ s.length) :
    ∃ N tr, nussinovAlgorithm s = .ok (N, tr) ∧
      tr.struct[s.length - 1]? =
        some (if N.cell 0 ((s.length : Int) - 1) = N.cell 0 ((s.length : Int) - 2) then '.'
          else ')') := by
  obtain ⟨N0, N, -, -, -, hg, -, hd, hun⟩ := nussinovAlgorithm_unfold s (by omega)
  have hd2 : Done N 0 (0 + (s.length : Int) - 1) := by rw [zero_add]; exact hd
  obtain ⟨w, P, rs, t1, f1, l1, n1, -⟩ := traceback_spec s N hg (s.length + 1) 0 s.length le_rfl
    (by omega) (by omega) hd2 [] [] [] [] rfl (by simp)
  simp only [zero_add, List.nil_append, List.append_nil] at t1 n1
  refine ⟨N, ⟨w, P, rs⟩, by rw [hun, t1], ?_⟩
  show w[s.length - 1]? = _
  have hdm : Done N 0 ((s.length : Int) - 1 - 1) := by
    by_cases hw : (s.length : Int) - 1 - 0 ≤ MIN_LOOP_LENGTH
    · left; omega
    · rcases hd with hd | hd
      · exact absurd hd hw
      · exact (hg.closed 0 _ le_rfl (by omega) (not_le.mp hw) hd).1
  have e2 : (s.length : Int) - 2 = (s.length : Int) - 1 - 1 := by ring
  have c1 := hg.cell_eq (le_refl 0) (by omega : (s.length : Int) - 1 < s.length) hd
  have c2 := hg.cell_eq (le_refl 0) (by omega : (s.length : Int) - 1 - 1 < s.length) hdm
  rw [e2, c1, c2]
  by_cases heq : R s 0 ((s.length : Int) - 1) = R s 0 ((s.length : Int) - 1 - 1)
  · rw [if_pos heq]
    obtain ⟨g1, -⟩ := Trace.get_ok hg ⟨List.replicate s.length '.', [], []⟩ 0
      ((s.length : Int) - 1) le_rfl (by omega) (by omega) (by omega) hd
    obtain ⟨g2, -⟩ := Trace.get_ok hg
      ⟨List.replicate s.length '.', [], [] ++ [(0, (s.length : Int) - 1, R s 0 ((s.length : Int) - 1))]⟩
      0 ((s.length : Int) - 1 - 1) le_rfl (by omega) (by omega) (by omega) hdm
    obtain ⟨l, hl⟩ : ∃ l : Nat, s.length = l + 1 := ⟨s.length - 1, by omega⟩
    have hdl : Done N 0 (0 + (l : Int) - 1) := by
      have : (0 : Int) + (l : Int) - 1 = (s.length : Int) - 1 - 1 := by rw [hl]; push_cast; ring
      rw [this]; exact hdm
    obtain ⟨w1, P1, rs1, t2, -, l2, -, -⟩ := traceback_spec s N hg s.length 0 l le_rfl
      (by rw [hl]; push_cast; omega) (by omega) hdl [] ['.'] []
      ([] ++ [(0, (s.length : Int) - 1, R s 0 ((s.length : Int) - 1))] ++
        [(0, (s.length : Int) - 1 - 1, R s 0 ((s.length : Int) - 1 - 1))])
      rfl (by rw [hl]; simp)
    simp only [List.nil_append] at t2
    have hstep : traceback (s.length + 1) 0 ((s.length : Int) - 1) N
        ⟨List.replicate s.length '.', [], []⟩ s =
        traceback s.length 0 ((s.length : Int) - 1 - 1) N
          ⟨List.replicate s.length '.', [],
            [(0, (s.length : Int) - 1, R s 0 ((s.length : Int) - 1))] ++
              [(0, (s.length : Int) - 1 - 1, R s 0 ((s.length : Int) - 1 - 1))]⟩ s := by
      rw [traceback, if_neg (by omega), g1]
      simp only
      rw [g2]
      simp only [List.nil_append]
      rw [if_pos heq]
    have e3 : (0 : Int) + (l : Int) - 1 = (s.length : Int) - 1 - 1 := by
      rw [hl]; push_cast; ring
    have e4 : List.replicate s.length '.' = List.replicate l '.' ++ ['.'] := by
      rw [hl, List.replicate_succ']
    rw [e3, ← e4] at t2
    rw [hstep, t2] at t1
    injection t1 with t1
    injection t1 with t1
    rw [← t1]
    have : s.length - 1 = w1.length := by omega
    rw [this]
    exact getElem_opt_append_mid w1 [] '.'
  · rw [if_neg heq]
    cases f1 with
    | nil => simp at l1; omega
    | @dot _ w1 _ f =>
      exfalso
      apply heq
      have hle := f.le_R
      have hmono := R_mono_right s 0 ((s.length : Int) - 1)
      simp only [List.length_append, List.length_singleton] at l1
      have e5 : (0 : Int) + (w1.length : Int) - 1 = (s.length : Int) - 1 - 1 := by omega
      rw [e5] at hle
      omega
    | @pair _ w1 w2 P1 P2 f1 f2 hlen hcomp =>
      simp only [List.length_append, List.length_cons, List.length_nil] at l1
      have : s.length - 1 = w1.length + 1 + w2.length := by omega
      rw [this, getElem_opt_append_past]
      exact getElem_opt_append_mid w2 [] ')'

theorem last_symbol_witness :
    2 ≤ ['G', 'G', 'G', 'A', 'A', 'A', 'U', 'C', 'C'].length ∧
    ∃ N tr, nussinovAlgorithm ['G', 'G', 'G', 'A', 'A', 'A', 'U', 'C', 'C'] = .ok (N, tr) ∧
      tr.struct[['G', 'G', 'G', 'A', 'A', 'A', 'U', 'C', 'C'].length - 1]? =
        some (if N.cell 0 ((['G', 'G', 'G', 'A', 'A', 'A', 'U', 'C', 'C'].length : Int) - 1) =
            N.cell 0 ((['G', 'G', 'G', 'A', 'A', 'A', 'U', 'C', 'C'].length : Int) - 2)
          then '.' else ')') :=
  ⟨by decide, last_symbol ['G', 'G', 'G', 'A', 'A', 'A', 'U', 'C', 'C'] (by decide)⟩

end RnaFold
